import Mathlib

/-!
# aws-federated-headless-login: a verification development

A shallow embedding of `main.go` and theorems about it.

* `getURLfromstdin` : the scan loop over the lines of standard input and the
  regular expression it matches them against.
* `saveCookies`, `loadCookies` : the credential file, with the base64 standard
  encoding written out and `encoding/json` taken as a parameter; for the round trip
  of the credential, the cookie and its JSON encoding are modelled from the spec.
* `ssoLogin` : the browser session as a program over a trace of effects, the
  answers of the browser being given by an oracle.
-/

namespace AwsLogin

/-! ## Regular expressions (the part of `regexp` that the pattern uses) -/

/-- Syntax tree of a compiled regular expression, with the operators that occur in
`^https.*user_code=([A-Z]{4}-?){2}`. -/
inductive Regexp where
  | beginText
  | literal (s : List Char)
  | anyCharNotNL
  | charClass (lo hi : Char)
  | concat (r₁ r₂ : Regexp)
  | star (r : Regexp)
  | quest (r : Regexp)
  | rep (n : Nat) (r : Regexp)
  | capture (r : Regexp)

/-- A continuation of the matcher: it receives whether the position is still the
beginning of the text, and the rest of the text. -/
abbrev Cont := Bool → List Char → Bool

/-- Match a literal string at the current position. -/
def matchLiteral : List Char → Bool → List Char → Cont → Bool
  | [], b, s, k => k b s
  | _ :: _, _, [], _ => false
  | c :: cs, _, x :: xs, k => c == x && matchLiteral cs false xs k

/-- The repetition `r{n}`: exactly `n` copies of `step`. -/
def matchRep (step : Bool → List Char → Cont → Bool) : Nat → Bool → List Char → Cont → Bool
  | 0, b, s, k => k b s
  | n + 1, b, s, k => step b s (fun b1 s1 => matchRep step n b1 s1 k)

/-- The closure `r*`: any number of copies of `step`, each consuming at least one
character; the first argument bounds the number of copies by the length of the text. -/
def matchStar (step : Bool → List Char → Cont → Bool) : Nat → Bool → List Char → Cont → Bool
  | 0, b, s, k => k b s
  | n + 1, b, s, k =>
    k b s || step b s (fun b1 s1 => decide (s1.length < s.length) && matchStar step n b1 s1 k)

/-- The matcher: `matchFrom r b s k` holds when `r` matches some beginning of `s`
(`b` telling whether `s` is the whole text) and `k` accepts what follows. -/
def matchFrom : Regexp → Bool → List Char → Cont → Bool
  | .beginText, b, s, k => b && k b s
  | .literal l, b, s, k => matchLiteral l b s k
  | .anyCharNotNL, _, s, k =>
    match s with
    | [] => false
    | c :: cs => c != '\n' && k false cs
  | .charClass lo hi, _, s, k =>
    match s with
    | [] => false
    | c :: cs => (decide (lo ≤ c) && decide (c ≤ hi)) && k false cs
  | .concat r₁ r₂, b, s, k => matchFrom r₁ b s (fun b1 s1 => matchFrom r₂ b1 s1 k)
  | .star r, b, s, k => matchStar (matchFrom r) s.length b s k
  | .quest r, b, s, k => matchFrom r b s k || k b s
  | .rep n r, b, s, k => matchRep (matchFrom r) n b s k
  | .capture r, b, s, k => matchFrom r b s k

/-- An unanchored search: does `re` match starting at some position of the text? -/
def searchFrom (re : Regexp) : Bool → List Char → Bool
  | b, [] => matchFrom re b [] (fun _ _ => true)
  | b, c :: cs => matchFrom re b (c :: cs) (fun _ _ => true) || searchFrom re false cs

/-- The method `(*Regexp).MatchString`: whether the string contains any match of the expression. -/
def Regexp.MatchString (re : Regexp) (s : String) : Bool :=
  searchFrom re true s.toList

/-- The result of `regexp.Compile("^https.*user_code=([A-Z]{4}-?){2}")`. -/
def urlPattern : Regexp :=
  .concat .beginText
    (.concat (.literal "https".toList)
      (.concat (.star .anyCharNotNL)
        (.concat (.literal "user_code=".toList)
          (.rep 2 (.capture (.concat (.rep 4 (.charClass 'A' 'Z')) (.quest (.literal ['-']))))))))

/-! ## `getURLfromstdin` -/

/-- A `bufio.Scanner` over standard input with the default split function
(`ScanLines`), seen through the tokens that it delivers: `input` holds the lines not
yet delivered (each without its end-of-line marker and within the token size of the
scanner), `token` the line that `Text` returns. -/
structure Scanner where
  input : List String
  token : String

/-- The call `bufio.NewScanner(os.Stdin)`, standard input being the given lines. -/
def NewScanner (stdin : List String) : Scanner :=
  { input := stdin, token := "" }

/-- The call `scanner.Scan()`: advance to the next line; at the end of the input it
returns false and leaves an empty token. -/
def Scanner.Scan (s : Scanner) : Bool × Scanner :=
  match s.input with
  | [] => (false, { input := [], token := "" })
  | l :: ls => (true, { input := ls, token := l })

/-- The call `scanner.Text()`. -/
def Scanner.Text (s : Scanner) : String := s.token

/-- The variables of the loop of `getURLfromstdin`. -/
structure ScanLoop where
  scanner : Scanner
  url : String

/-- One iteration of the body of `for url == ""`. -/
def loopBody (st : ScanLoop) : ScanLoop :=
  let scanner := st.scanner.Scan.2
  let text := scanner.Text
  let result := urlPattern
  if result.MatchString text then
    { scanner := scanner, url := text }
  else
    { scanner := scanner, url := st.url }

/-- The loop `for url == "" { ... }`, run for at most `fuel` iterations; `none` when
the loop is still running after them. -/
def scanLoop : Nat → ScanLoop → Option ScanLoop
  | 0, st => if st.url = "" then none else some st
  | fuel + 1, st => if st.url = "" then scanLoop fuel (loopBody st) else some st

/-- The function `getURLfromstdin()` on the lines `stdin`, its loop bounded by `fuel` iterations.
The message to the spinner and the deferred closing of standard input do not bear on
the value returned and are left out. -/
def getURLfromstdin (fuel : Nat) (stdin : List String) : Option String :=
  (scanLoop fuel { scanner := NewScanner stdin, url := "" }).map (fun st => st.url)

/-! ### The words of the specification about the URL -/

/-- An uppercase letter, `A` to `Z`. -/
def isUpperLetter (c : Char) : Prop := 'A' ≤ c ∧ c ≤ 'Z'

/-- The specification's description of an accepted line: it begins with `https`
and contains, somewhere after that, `user_code=` immediately followed by four
uppercase letters, an optional hyphen, and four more uppercase letters. -/
def SpecAcceptedLine (line : List Char) : Prop :=
  ∃ mid g₁ hy g₂ tail,
    line = "https".toList ++ mid ++ "user_code=".toList ++ g₁ ++ hy ++ g₂ ++ tail ∧
    (g₁.length = 4 ∧ ∀ c ∈ g₁, isUpperLetter c) ∧ (hy = [] ∨ hy = ['-']) ∧
    (g₂.length = 4 ∧ ∀ c ∈ g₂, isUpperLetter c)

/-- The scheme of a URL: what stands before the first colon. -/
def urlScheme (u : List Char) : List Char :=
  u.takeWhile (fun c => c != ':')

/-- The query of a URL: what stands after the first question mark, up to a `#`. -/
def urlQuery (u : List Char) : List Char :=
  ((u.dropWhile (fun c => c != '?')).drop 1).takeWhile (fun c => c != '#')

/-- Split a query at every `&`; `cur` is the parameter being read, reversed. -/
def splitParams : List Char → List Char → List (List Char)
  | [], cur => [cur.reverse]
  | c :: cs, cur => if c = '&' then cur.reverse :: splitParams cs [] else splitParams cs (c :: cur)

/-- The value of the first query parameter called `key`, if there is one. -/
def queryParam (key : List Char) (u : List Char) : Option (List Char) :=
  ((splitParams (urlQuery u) []).find? (fun p => p.takeWhile (fun c => c != '=') == key)).map
    (fun p => (p.dropWhile (fun c => c != '=')).drop 1)

/-- Two groups of four uppercase letters, optionally separated by a hyphen, and
nothing more: `XXXXXXXX` or `XXXX-XXXX`. -/
def isUserCode (v : List Char) : Bool :=
  let up := fun (c : Char) => decide ('A' ≤ c) && decide (c ≤ 'Z')
  (v.length == 8 && v.all up) ||
    (v.length == 9 && (v.take 4).all up && (v.drop 4).take 1 == ['-'] && (v.drop 5).all up)

/-- The specification's `DeviceAuthorizationURL`: scheme `https` and a `user_code`
query parameter whose value is two groups of four uppercase letters, optionally
hyphenated. -/
def DeviceAuthorizationURL (u : String) : Bool :=
  urlScheme u.toList == "https".toList &&
    match queryParam "user_code".toList u.toList with
    | some v => isUserCode v
    | none => false

/-! ## Bytes and `encoding/base64` (the standard encoding, with padding) -/

/-- A byte. Go strings and byte slices of the credential code are lists of bytes. -/
abbrev Byte := Fin 256

/-- The conversion `byte(n)`: the low eight bits. -/
def toByte (n : Nat) : Byte := ⟨n % 256, Nat.mod_lt n (by decide)⟩

/-- The bytes of a text of ASCII characters. -/
def asciiBytes (s : String) : List Byte := s.toList.map (fun c => toByte c.toNat)

/-- The alphabet of `base64.StdEncoding`. -/
def encodeStd : List Byte :=
  asciiBytes "ABCDEFGHIJKLMNOPQRSTUVWXYZabcdefghijklmnopqrstuvwxyz0123456789+/"

/-- The padding character `=`. -/
def padChar : Byte := 61

/-- Lookup `enc.encode[i]`. -/
def encodeChar (i : Nat) : Byte := encodeStd.getD i 0

/-- Lookup `enc.decodeMap[c]`: the position of `c` in the alphabet; `none` stands
for the entry `0xff` of a byte outside the alphabet. -/
def decodeMap (c : Byte) : Option Nat :=
  if encodeStd.indexOf c < 64 then some (encodeStd.indexOf c) else none

/-- The method `(*Encoding).Encode`, and with it `EncodeToString`: three bytes become four
characters, and a last block of one or two bytes is padded. -/
def EncodeToString : List Byte → List Byte
  | a :: b :: c :: rest =>
    let val := a.val <<< 16 ||| b.val <<< 8 ||| c.val
    encodeChar (val >>> 18 &&& 0x3F) :: encodeChar (val >>> 12 &&& 0x3F) ::
      encodeChar (val >>> 6 &&& 0x3F) :: encodeChar (val &&& 0x3F) :: EncodeToString rest
  | [a, b] =>
    let val := a.val <<< 16 ||| b.val <<< 8
    [encodeChar (val >>> 18 &&& 0x3F), encodeChar (val >>> 12 &&& 0x3F),
      encodeChar (val >>> 6 &&& 0x3F), padChar]
  | [a] =>
    let val := a.val <<< 16
    [encodeChar (val >>> 18 &&& 0x3F), encodeChar (val >>> 12 &&& 0x3F), padChar, padChar]
  | [] => []

/-- The loop `for si < len(src) && (src[si] == '\n' || src[si] == '\r') { si++ }`. -/
def skipNewlines : List Byte → List Byte
  | [] => []
  | c :: cs => if c = 10 ∨ c = 13 then skipNewlines cs else c :: cs

/-- What `decodeQuantum` returns: the source left to read, the bytes written to the
destination, and whether it returned a `CorruptInputError`. -/
structure Quantum where
  rest : List Byte
  out : List Byte
  err : Bool

/-- The end of `decodeQuantum`: convert the digits read (`dlen` of them) into
`dlen - 1` bytes. -/
def quantumBytes (dbuf : List Nat) (dlen : Nat) : List Byte :=
  let val := dbuf.getD 0 0 <<< 18 ||| dbuf.getD 1 0 <<< 12 ||| dbuf.getD 2 0 <<< 6 ||| dbuf.getD 3 0
  [toByte (val >>> 16), toByte (val >>> 8), toByte (val >>> 0)].take (dlen - 1)

/-- The end of a quantum that carries padding: newlines are skipped, and anything
left after them is trailing garbage, reported together with the decoded bytes. -/
def finishPadded (dbuf : List Nat) (dlen : Nat) (src : List Byte) : Quantum :=
  { rest := skipNewlines src, out := quantumBytes dbuf dlen,
    err := !(skipNewlines src).isEmpty }

/-- The method `(*Encoding).decodeQuantum` for the standard encoding: `dbuf` holds the digits
read so far (`j` is its length), the list is `src[si:]`. -/
def decodeQuantum : List Nat → List Byte → Quantum
  | dbuf, [] =>
    if dbuf.length = 0 then { rest := [], out := [], err := false }
    else { rest := [], out := [], err := true }
  | dbuf, c :: src =>
    match decodeMap c with
    | some out =>
      if dbuf.length + 1 = 4 then { rest := src, out := quantumBytes (dbuf ++ [out]) 4, err := false }
      else decodeQuantum (dbuf ++ [out]) src
    | none =>
      if c = 10 ∨ c = 13 then decodeQuantum dbuf src
      else if c ≠ padChar then { rest := src, out := [], err := true }
      else
        match dbuf.length with
        | 0 => { rest := src, out := [], err := true }
        | 1 => { rest := src, out := [], err := true }
        | 2 =>
          match skipNewlines src with
          | [] => { rest := [], out := [], err := true }
          | d :: src1 =>
            if d ≠ padChar then { rest := d :: src1, out := [], err := true }
            else finishPadded dbuf 2 src1
        | _ => finishPadded dbuf 3 src

/-- The method `(*Encoding).Decode`: quantum after quantum until the source is read or a
quantum reports corrupt input; the bytes decoded so far are returned with the error.
`fuel` bounds the number of quanta. -/
def Decode : Nat → List Byte → List Byte × Bool
  | 0, _ => ([], false)
  | _ + 1, [] => ([], false)
  | fuel + 1, c :: src =>
    let q := decodeQuantum [] (c :: src)
    if q.err then (q.out, true)
    else ((q.out ++ (Decode fuel q.rest).1), (Decode fuel q.rest).2)

/-- The method `(*Encoding).DecodeString`: the decoded bytes, also when decoding stopped at
corrupt input, and whether it did. -/
def DecodeString (s : List Byte) : List Byte × Bool :=
  Decode s.length s

/-! ## Errors, the third-party parts, and the effects of the program -/

/-- An error value, as far as the program inspects it: through `Error()` and through
`errors.Is(err, context.DeadlineExceeded)`, which follows the chain of wrapped errors. -/
inductive GoError where
  | deadlineExceeded
  | errorString (text : String)
  | wrapped (text : String) (err : GoError)
  deriving DecidableEq

/-- The method `Error()`. -/
def GoError.Error : GoError → String
  | .deadlineExceeded => "context deadline exceeded"
  | .errorString text => text
  | .wrapped text _ => text

/-- The test `errors.Is(err, context.DeadlineExceeded)` on a non-nil error. -/
def GoError.isDeadlineExceeded : GoError → Bool
  | .deadlineExceeded => true
  | .errorString _ => false
  | .wrapped _ err => err.isDeadlineExceeded

/-- The test `errors.Is(err, context.DeadlineExceeded)`; a nil error is `none`. -/
def errorsIsDeadlineExceeded : Option GoError → Bool
  | none => false
  | some err => err.isDeadlineExceeded

/-- What the program uses of the browser protocol package and of `encoding/json`,
neither of which belongs to the repository: the cookie type `proto.NetworkCookie` with
its field `Name`, `json.Marshal` on a cookie (the bytes and the error it returns) and
`json.Unmarshal` into a nil `*proto.NetworkCookie` (the pointer afterwards, `none` for
nil, and the error it returns). -/
structure Proto where
  NetworkCookie : Type
  Name : NetworkCookie → String
  Marshal : NetworkCookie → List Byte × Option GoError
  Unmarshal : List Byte → Option NetworkCookie × Option GoError

/-- How a call of `os.WriteFile` fails: with the error `err`, after getting as far as
`written` tells. `none`: the file could not be opened, and nothing has changed.
`some k`: the file was opened, and by that created or truncated, and `k` bytes of the
data were written before the failure. -/
structure WriteFailure where
  err : GoError
  written : Option Nat

/-- The effects of the program that can be observed: calls to the spinner and to the
browser, in the order in which they happen. -/
inductive Event (P : Proto) where
  | message (text : String)
  | pause
  | unpause
  | stopFailMessage (text : String)
  | stopFail
  | launch (headless : Bool)
  | connect (controlURL : String)
  | setCookies (cookie : P.NetworkCookie)
  | page (url : String)
  | elementR (selector : String) (regex : String)
  | waitEnabled
  | waitVisible
  | click
  | sleep (milliseconds : Nat)
  | getCookies

/-- The answers of the environment: the operating system, the colour package and the
browser. `none` in an `Option GoError` means that the call succeeds. The three colour
functions wrap their argument between two texts (the escape sequences, empty when
colour is off). `recovered` is how `rod.Try` turns the value of a panic into the
error it returns. `allowPoll i` tells whether the attempt number `i` to find the
Allow button succeeds. -/
structure World (P : Proto) where
  home : Except GoError String
  red : String × String
  yellow : String × String
  magenta : String × String
  writeFile : Option WriteFailure
  launch : Except GoError String
  connect : Option GoError
  setCookies : Option GoError
  page : Option GoError
  confirmElement : Option GoError
  confirmEnabled : Option GoError
  confirmClick : Option GoError
  allowPoll : Nat → Bool
  allowVisible : Option GoError
  allowClick : Option GoError
  getCookies : Except GoError (List P.NetworkCookie)
  recovered : GoError → GoError

/-- The state that the program changes: the files (`none` for a file that is missing
or cannot be read) and the trace of effects so far. -/
structure State (P : Proto) where
  files : String → Option (List Byte)
  trace : List (Event P)

/-- How a piece of the program ends: normally with a value, by `os.Exit`, by a Go
panic that nothing has recovered yet, or not within the fuel given to its loop. -/
inductive Outcome (α : Type) where
  | ok (a : α)
  | exit (code : Nat)
  | goPanic (v : GoError)
  | running

/-- The status with which the process ends, if the outcome ends it: the argument of
`os.Exit`, or 2 for a panic that is never recovered. -/
def Outcome.exitCode {α : Type} : Outcome α → Option Nat
  | .ok _ => none
  | .exit code => some code
  | .goPanic _ => some 2
  | .running => none

/-- A piece of the program: from a state to an outcome and a state. -/
def Prog (P : Proto) (α : Type) : Type := State P → Outcome α × State P

/-- Sequencing: what follows runs only after a normal end. -/
def Prog.bind {P : Proto} {α β : Type} (m : Prog P α) (f : α → Prog P β) : Prog P β :=
  fun st =>
    match m st with
    | (.ok a, st1) => f a st1
    | (.exit code, st1) => (.exit code, st1)
    | (.goPanic v, st1) => (.goPanic v, st1)
    | (.running, st1) => (.running, st1)

instance (P : Proto) : Monad (Prog P) where
  pure a := fun st => (.ok a, st)
  bind := Prog.bind

/-- Record one effect. -/
def emit {P : Proto} (e : Event P) : Prog P Unit :=
  fun st => (.ok (), { st with trace := st.trace ++ [e] })

/-- The call `os.Exit(code)`. -/
def osExit {P : Proto} {α : Type} (code : Nat) : Prog P α :=
  fun st => (.exit code, st)

/-- The builtin `panic(v)` of Go, as the `Must` methods of the browser package raise it. -/
def goPanic {P : Proto} {α : Type} (v : GoError) : Prog P α :=
  fun st => (.goPanic v, st)

/-- A loop that has used up its fuel. -/
def stillRunning {P : Proto} {α : Type} : Prog P α :=
  fun st => (.running, st)

/-- A `Must` method: the effect, then a panic if the call fails. -/
def must {P : Proto} (e : Event P) (answer : Option GoError) : Prog P Unit := do
  emit e
  match answer with
  | some err => goPanic err
  | none => pure ()

/-- A colour function of the colour package applied to a text. -/
def colored (wrap : String × String) (text : String) : String :=
  wrap.1 ++ text ++ wrap.2

/-- The call `os.UserHomeDir()`: the directory (empty on failure) and the error. -/
def UserHomeDir {P : Proto} (W : World P) : String × Option GoError :=
  match W.home with
  | .ok dirname => (dirname, none)
  | .error err => ("", some err)

/-- The call `os.ReadFile(name)`, its error dropped: no bytes for a file that cannot be read. -/
def ReadFile {P : Proto} (name : String) : Prog P (List Byte) :=
  fun st => (.ok ((st.files name).getD []), st)

/-- The call `os.WriteFile(name, data, 0644)`: it opens the file, creating or
truncating it, and writes the data. On success the file holds the data. On failure
the error is returned, and the file is as it was when it could not be opened, and
holds the bytes written before the failure otherwise. -/
def WriteFile {P : Proto} (W : World P) (name : String) (data : List Byte) :
    Prog P (Option GoError) :=
  fun st =>
    match W.writeFile with
    | none => (.ok none, { st with files := fun n => if n = name then some data else st.files n })
    | some failure =>
      match failure.written with
      | none => (.ok (some failure.err), st)
      | some k =>
        (.ok (some failure.err),
         { st with files := fun n => if n = name then some (data.take k) else st.files n })

/-- The call `rod.Try(fn)`: run `fn`, recover a panic and return it as an error. -/
def Try {P : Proto} (W : World P) (fn : Prog P Unit) : Prog P (Option GoError) :=
  fun st =>
    match fn st with
    | (.ok _, st1) => (.ok none, st1)
    | (.goPanic v, st1) => (.ok (some (W.recovered v)), st1)
    | (.exit code, st1) => (.exit code, st1)
    | (.running, st1) => (.running, st1)

/-! ## `errormsg`, `panic`, `loadCookies`, `saveCookies`, `ssoLogin` -/

/-- The name of the session cookie. -/
def sessionCookieName : String := "x-amz-sso_authn"

/-- The name of the credential file under the directory `dirname`. -/
def credentialFile (dirname : String) : String := dirname ++ "/.aws-federated-headless-login"

/-- The function `errormsg(errorMsg)`: print error message. -/
def errormsg {P : Proto} (W : World P) (errorMsg : String) : Prog P Unit :=
  emit (.message ("Warn: " ++ colored W.yellow errorMsg))

/-- The function `panic(errorMsg)` of package main: print error message and exit. -/
def panic {P : Proto} {α : Type} (W : World P) (errorMsg : String) : Prog P α := do
  emit (.stopFailMessage (colored W.red ("Fatal Panic and Exit. Error: " ++ errorMsg)))
  emit .stopFail
  osExit 1

/-- The function `loadCookies(browser)`: load cookies so we can re-use the auth from first full login. -/
def loadCookies {P : Proto} (W : World P) : Prog P Unit := do
  emit (.message "loading cookies")
  let (dirname, err) := UserHomeDir W
  match err with
  | some e => errormsg W e.Error
  | none => pure ()
  let data ← ReadFile (credentialFile dirname)
  let sEnc := (DecodeString data).1
  let cookie := (P.Unmarshal sEnc).1
  match cookie with
  | some c => must (.setCookies c) W.setCookies
  | none => pure ()

/-- The loop `for _, cookie := range cookies` of `saveCookies`. -/
def saveCookiesLoop {P : Proto} (W : World P) (dirname : String) :
    List P.NetworkCookie → Prog P Unit
  | [] => pure ()
  | cookie :: cookies =>
    if P.Name cookie = sessionCookieName then do
      let data := (P.Marshal cookie).1
      let sEnc := EncodeToString data
      let err ← WriteFile W (credentialFile dirname) sEnc
      match err with
      | some _ => errormsg W "Failed to save x-amz-sso_authn cookie"
      | none => pure ()
    else saveCookiesLoop W dirname cookies

/-- The call `browser.MustGetCookies()`. -/
def MustGetCookies {P : Proto} (W : World P) : Prog P (List P.NetworkCookie) := do
  emit .getCookies
  match W.getCookies with
  | .ok cookies => pure cookies
  | .error err => goPanic err

/-- The function `saveCookies(browser)`: save the returned authentication cookie. -/
def saveCookies {P : Proto} (W : World P) : Prog P Unit := do
  let (dirname, err) := UserHomeDir W
  match err with
  | some e => errormsg W e.Error
  | none => pure ()
  let cookies ← MustGetCookies W
  saveCookiesLoop W dirname cookies

/-- The loop that looks for the Allow button every 500 ms, attempt `i` being the
next one; it returns whether `allowButton != nil`. -/
def pollAllow {P : Proto} (W : World P) : Nat → Nat → Prog P Bool
  | 0, _ => stillRunning
  | fuel + 1, i => do
    emit (.elementR "button" "Allow")
    if W.allowPoll i then pure true
    else do
      emit (.sleep 500)
      pollAllow W fuel (i + 1)

/-- The function given to `rod.Try`: from opening the page to saving the cookies. -/
def automation {P : Proto} (W : World P) (fuel : Nat) (url : String) : Prog P Unit := do
  emit (.message "opening url")
  must (.page url) W.page
  emit .unpause
  emit (.message "clicking Confirm and continue button")
  must (.elementR "button" "Confirm and continue") W.confirmElement
  must .waitEnabled W.confirmEnabled
  must .click W.confirmClick
  emit (.sleep 1000)
  emit (.message "waiting for Allow button")
  let allowButton ← pollAllow W fuel 0
  if allowButton then do
    must .waitVisible W.allowVisible
    must .click W.allowClick
  else pure ()
  saveCookies W

/-- The end of `ssoLogin`: any errors manage them. -/
def manageErrors {P : Proto} (W : World P) (err : Option GoError) : Prog P Unit :=
  if errorsIsDeadlineExceeded err then panic W "Timed out waiting for page"
  else
    match err with
    | some e => do
      if e.Error = "write on closed pipe" then osExit 0 else pure ()
      panic W e.Error
    | none => pure ()

/-- The call `launcher.New().Headless(!show).MustLaunch()`. -/
def MustLaunch {P : Proto} (W : World P) (headless : Bool) : Prog P String := do
  emit (.launch headless)
  match W.launch with
  | .ok launchurl => pure launchurl
  | .error err => goPanic err

/-- The function `ssoLogin(url, show)`; `fuel` bounds the iterations of the Allow loop. -/
def ssoLogin {P : Proto} (W : World P) (fuel : Nat) (url : String) (showBrowser : Bool) :
    Prog P Unit := do
  let launchurl ← MustLaunch W (!showBrowser)
  emit (.message (colored W.magenta "init headless-browser \n"))
  emit .pause
  must (.connect launchurl) W.connect
  loadCookies W
  let err ← Try W (automation W fuel url)
  manageErrors W err

/-! ## An instance for the examples -/

/-- A cookie reduced to its name and its value. -/
structure SampleCookie where
  Name : String
  Value : String
  deriving DecidableEq

/-- Remove the text `lit` from the beginning of `s`, if `s` begins with it. -/
def dropLiteral : List Byte → List Byte → Option (List Byte)
  | [], s => some s
  | _ :: _, [] => none
  | l :: lit, c :: s => if l = c then dropLiteral lit s else none

/-- The text of a list of ASCII bytes. -/
def asciiString (bs : List Byte) : String :=
  String.mk (bs.map (fun b => Char.ofNat b.val))

/-- The JSON object of a sample cookie, for strings that need no escaping. -/
def sampleMarshal (c : SampleCookie) : List Byte × Option GoError :=
  (asciiBytes ("\x7b\"name\":\"" ++ c.Name ++ "\",\"value\":\"" ++ c.Value ++ "\"\x7d"), none)

/-- Read back the JSON object of a sample cookie; the pointer stays nil on any
other input. -/
def sampleUnmarshal (data : List Byte) : Option SampleCookie × Option GoError :=
  match data with
  | [] => (none, some (.errorString "unexpected end of JSON input"))
  | _ =>
    match dropLiteral (asciiBytes "\x7b\"name\":\"") data with
    | none => (none, some (.errorString "invalid character"))
    | some s1 =>
      match dropLiteral (asciiBytes "\",\"value\":\"") (s1.dropWhile (fun b => b != 34)) with
      | none => (none, some (.errorString "invalid character"))
      | some s2 =>
        if s2.dropWhile (fun b => b != 34) = asciiBytes "\"\x7d" then
          (some { Name := asciiString (s1.takeWhile (fun b => b != 34)),
                  Value := asciiString (s2.takeWhile (fun b => b != 34)) }, none)
        else (none, some (.errorString "invalid character"))

/-- The instance: sample cookies with their JSON objects. -/
def sampleProto : Proto where
  NetworkCookie := SampleCookie
  Name := SampleCookie.Name
  Marshal := sampleMarshal
  Unmarshal := sampleUnmarshal

/-- A session cookie. -/
def sampleCookie : SampleCookie := { Name := "x-amz-sso_authn", Value := "s3cr3t" }

/-- A world in which every call succeeds at once, colour is off, the home directory
is `/home/u` and the browser holds the cookies `jar`. -/
def calmWorld (jar : List SampleCookie) : World sampleProto where
  home := .ok "/home/u"
  red := ("", "")
  yellow := ("", "")
  magenta := ("", "")
  writeFile := none
  launch := .ok "ws://127.0.0.1:9222"
  connect := none
  setCookies := none
  page := none
  confirmElement := none
  confirmEnabled := none
  confirmClick := none
  allowPoll := fun _ => true
  allowVisible := none
  allowClick := none
  getCookies := .ok jar
  recovered := fun v => v

/-- A state without files and without effects. -/
def emptyState : State sampleProto where
  files := fun _ => none
  trace := []

/-! ## The structured encoding of the credential: UTF-8 -/

/-- Modelled from the spec: the structured encoding, the bytes of one character in
UTF-8. -/
def utf8EncodeChar (c : Char) : List Byte :=
  if c.toNat < 0x80 then [toByte c.toNat]
  else if c.toNat < 0x800 then [toByte (0xC0 + c.toNat / 64), toByte (0x80 + c.toNat % 64)]
  else if c.toNat < 0x10000 then
    [toByte (0xE0 + c.toNat / 4096), toByte (0x80 + c.toNat / 64 % 64),
      toByte (0x80 + c.toNat % 64)]
  else
    [toByte (0xF0 + c.toNat / 262144), toByte (0x80 + c.toNat / 4096 % 64),
      toByte (0x80 + c.toNat / 64 % 64), toByte (0x80 + c.toNat % 64)]

/-- Modelled from the spec: the structured encoding, the bytes of a text in UTF-8. -/
def utf8Encode : List Char → List Byte
  | [] => []
  | c :: cs => utf8EncodeChar c ++ utf8Encode cs

/-- Modelled from the spec: the structured encoding, the replacement character that
stands for a byte that is not UTF-8. -/
def runeError : Char := Char.ofNat 0xFFFD

/-- Modelled from the spec: the structured encoding, a continuation byte of UTF-8,
`10xxxxxx`. -/
def isContinuation (b : Byte) : Bool := decide (0x80 ≤ b.val) && decide (b.val < 0xC0)

/-- Modelled from the spec: the structured encoding, decoding the character that
begins with the byte `b0`, and what is left of `rest`; a byte that begins no well-formed character gives the replacement
character and is skipped alone. -/
def decodeRune (b0 : Byte) (rest : List Byte) : Char × List Byte :=
  if b0.val < 0x80 then (Char.ofNat b0.val, rest)
  else if b0.val < 0xE0 then
    match rest with
    | b1 :: r1 =>
      if 0xC0 ≤ b0.val ∧ isContinuation b1 = true ∧
          0x80 ≤ (b0.val - 0xC0) * 64 + (b1.val - 0x80) then
        (Char.ofNat ((b0.val - 0xC0) * 64 + (b1.val - 0x80)), r1)
      else (runeError, rest)
    | [] => (runeError, rest)
  else if b0.val < 0xF0 then
    match rest with
    | b1 :: b2 :: r2 =>
      if isContinuation b1 = true ∧ isContinuation b2 = true ∧
          0x800 ≤ (b0.val - 0xE0) * 4096 + (b1.val - 0x80) * 64 + (b2.val - 0x80) ∧
          ¬ (0xD800 ≤ (b0.val - 0xE0) * 4096 + (b1.val - 0x80) * 64 + (b2.val - 0x80) ∧
            (b0.val - 0xE0) * 4096 + (b1.val - 0x80) * 64 + (b2.val - 0x80) < 0xE000) then
        (Char.ofNat ((b0.val - 0xE0) * 4096 + (b1.val - 0x80) * 64 + (b2.val - 0x80)), r2)
      else (runeError, rest)
    | _ => (runeError, rest)
  else
    match rest with
    | b1 :: b2 :: b3 :: r3 =>
      if b0.val < 0xF8 ∧ isContinuation b1 = true ∧ isContinuation b2 = true ∧
          isContinuation b3 = true ∧
          0x10000 ≤ (b0.val - 0xF0) * 262144 + (b1.val - 0x80) * 4096 + (b2.val - 0x80) * 64 +
            (b3.val - 0x80) ∧
          (b0.val - 0xF0) * 262144 + (b1.val - 0x80) * 4096 + (b2.val - 0x80) * 64 +
            (b3.val - 0x80) < 0x110000 then
        (Char.ofNat ((b0.val - 0xF0) * 262144 + (b1.val - 0x80) * 4096 + (b2.val - 0x80) * 64 +
          (b3.val - 0x80)), r3)
      else (runeError, rest)
    | _ => (runeError, rest)

/-- Modelled from the spec: the structured encoding, the text of a sequence of bytes
read as UTF-8, for at most `fuel` characters. -/
def utf8Decode : Nat → List Byte → List Char
  | 0, _ => []
  | _ + 1, [] => []
  | fuel + 1, b0 :: rest => (decodeRune b0 rest).1 :: utf8Decode fuel (decodeRune b0 rest).2

/-! ## The structured encoding of the credential: JSON text -/

/-- Modelled from the spec: the structured encoding (JSON), its double quote. -/
def quoteChar : Char := Char.ofNat 34

/-- Modelled from the spec: the structured encoding (JSON), its backslash. -/
def backslash : Char := Char.ofNat 92

/-- Modelled from the spec: the structured encoding (JSON), a number without
exponent, given by its sign, its whole part and the digits after the point. The
expiry of a cookie is such a number, in seconds. -/
structure Number where
  negative : Bool
  whole : Nat
  fraction : List (Fin 10)
  deriving DecidableEq

/-- Modelled from the spec: the structured encoding (JSON), the character of a digit. -/
def digitChar (d : Nat) : Char := Char.ofNat (48 + d)

/-- Modelled from the spec: the structured encoding (JSON), the longest run of
digits at the beginning of a text, and what follows it. -/
def takeDigits : List Char → List Nat × List Char
  | [] => ([], [])
  | c :: cs =>
    if 48 ≤ c.toNat ∧ c.toNat ≤ 57 then ((c.toNat - 48) :: (takeDigits cs).1, (takeDigits cs).2)
    else ([], c :: cs)

/-- Modelled from the spec: the structured encoding (JSON), the decimal digits of
a whole number. -/
def printWhole (n : Nat) : List Char :=
  if n = 0 then [digitChar 0] else ((Nat.digits 10 n).reverse.map digitChar)

/-- Modelled from the spec: the structured encoding (JSON), the text of a number. -/
def printNumber (n : Number) : List Char :=
  (if n.negative then ['-'] else []) ++ printWhole n.whole ++
    (if n.fraction = [] then [] else '.' :: n.fraction.map (fun d => digitChar d.val))

/-- Modelled from the spec: the structured encoding (JSON), the number that decimal
digits stand for, the first digit being the most significant. -/
def wholeOfDigits (ds : List Nat) : Nat := ds.foldl (fun acc d => acc * 10 + d) 0

/-- Modelled from the spec: the structured encoding (JSON), reading a number, after
its sign: digits without a needless leading zero, then possibly a point and more
digits. A number with an exponent is not read. -/
def parseUnsigned (negative : Bool) (cs : List Char) : Option (Number × List Char) :=
  if (takeDigits cs).1 = [] then none
  else if 1 < (takeDigits cs).1.length ∧ (takeDigits cs).1.head? = some 0 then none
  else
    match (takeDigits cs).2 with
    | [] => some ({ negative := negative, whole := wholeOfDigits (takeDigits cs).1,
                    fraction := [] }, [])
    | c :: r =>
      if c = '.' then
        if (takeDigits r).1 = [] then none
        else
          match (takeDigits r).2 with
          | [] => some ({ negative := negative, whole := wholeOfDigits (takeDigits cs).1,
                          fraction := (takeDigits r).1.map (fun d => Fin.ofNat d) }, [])
          | e :: r2 =>
            if e = 'e' ∨ e = 'E' then none
            else some ({ negative := negative, whole := wholeOfDigits (takeDigits cs).1,
                         fraction := (takeDigits r).1.map (fun d => Fin.ofNat d) }, e :: r2)
      else if c = 'e' ∨ c = 'E' then none
      else some ({ negative := negative, whole := wholeOfDigits (takeDigits cs).1,
                   fraction := [] }, c :: r)

/-- Modelled from the spec: the structured encoding (JSON), reading a number. -/
def parseNumber (cs : List Char) : Option (Number × List Char) :=
  match cs with
  | [] => none
  | c :: r => if c = '-' then parseUnsigned true r else parseUnsigned false (c :: r)

/-- Modelled from the spec: the structured encoding (JSON), a hexadecimal digit. -/
def hexDigit (k : Nat) : Char := "0123456789abcdef".toList.getD k '0'

/-- Modelled from the spec: the structured encoding (JSON), the value of a
hexadecimal digit, in either case. -/
def hexValue (c : Char) : Option Nat :=
  if 48 ≤ c.toNat ∧ c.toNat ≤ 57 then some (c.toNat - 48)
  else if 97 ≤ c.toNat ∧ c.toNat ≤ 102 then some (c.toNat - 87)
  else if 65 ≤ c.toNat ∧ c.toNat ≤ 70 then some (c.toNat - 55)
  else none

/-- Modelled from the spec: the structured encoding (JSON), four hexadecimal digits. -/
def hex4 (n : Nat) : List Char :=
  [hexDigit (n / 4096 % 16), hexDigit (n / 256 % 16), hexDigit (n / 16 % 16), hexDigit (n % 16)]

/-- Modelled from the spec: the structured encoding (JSON), reading four
hexadecimal digits. -/
def parseHex4 : List Char → Option (Nat × List Char)
  | a :: b :: c :: d :: rest =>
    match hexValue a, hexValue b, hexValue c, hexValue d with
    | some x, some y, some z, some w => some (x * 4096 + y * 256 + z * 16 + w, rest)
    | _, _, _, _ => none
  | _ => none

/-- Modelled from the spec: the structured encoding (JSON), the characters written
as `\uXXXX`: control characters, the characters that are unsafe in HTML, and the two
line separators. -/
def needsUnicodeEscape (c : Char) : Bool :=
  decide (c.toNat < 0x20) || c = '<' || c = '>' || c = '&' || decide (c.toNat = 0x2028) ||
    decide (c.toNat = 0x2029)

/-- Modelled from the spec: the structured encoding (JSON), one character inside a
string. -/
def escapeChar (c : Char) : List Char :=
  if c = quoteChar then [backslash, quoteChar]
  else if c = backslash then [backslash, backslash]
  else if c = '\n' then [backslash, 'n']
  else if c = '\r' then [backslash, 'r']
  else if c = '\t' then [backslash, 't']
  else if needsUnicodeEscape c then backslash :: 'u' :: hex4 c.toNat
  else [c]

/-- Modelled from the spec: the structured encoding (JSON), the inside of a string. -/
def escapeAll : List Char → List Char
  | [] => []
  | c :: cs => escapeChar c ++ escapeAll cs

/-- Modelled from the spec: the structured encoding (JSON), a string between quotes. -/
def quoteString (s : String) : List Char :=
  quoteChar :: (escapeAll s.toList ++ [quoteChar])

/-- Modelled from the spec: the structured encoding (JSON), reading what follows a
backslash inside a string. A pair of surrogates makes one character, a surrogate
alone the replacement character. -/
def unescape : List Char → Option (Char × List Char)
  | [] => none
  | c :: r =>
    if c = quoteChar then some (quoteChar, r)
    else if c = backslash then some (backslash, r)
    else if c = '/' then some ('/', r)
    else if c = 'b' then some (Char.ofNat 8, r)
    else if c = 'f' then some (Char.ofNat 12, r)
    else if c = 'n' then some ('\n', r)
    else if c = 'r' then some ('\r', r)
    else if c = 't' then some ('\t', r)
    else if c = 'u' then
      match parseHex4 r with
      | none => none
      | some (n, r1) =>
        if 0xD800 ≤ n ∧ n < 0xDC00 then
          match r1 with
          | b :: u :: r2 =>
            if b = backslash ∧ u = 'u' then
              match parseHex4 r2 with
              | some (m, r3) =>
                if 0xDC00 ≤ m ∧ m < 0xE000 then
                  some (Char.ofNat (0x10000 + (n - 0xD800) * 1024 + (m - 0xDC00)), r3)
                else some (runeError, r1)
              | none => some (runeError, r1)
            else some (runeError, r1)
          | _ => some (runeError, r1)
        else if 0xDC00 ≤ n ∧ n < 0xE000 then some (runeError, r1)
        else some (Char.ofNat n, r1)
    else none

/-- Modelled from the spec: the structured encoding (JSON), reading the inside of
a string up to its closing quote, over at most `fuel` characters. -/
def parseChars : Nat → List Char → Option (List Char × List Char)
  | 0, _ => none
  | _ + 1, [] => none
  | fuel + 1, c :: cs =>
    if c = quoteChar then some ([], cs)
    else if c = backslash then
      match unescape cs with
      | none => none
      | some (d, r) =>
        match parseChars fuel r with
        | none => none
        | some (s, r2) => some (d :: s, r2)
    else if c.toNat < 0x20 then none
    else
      match parseChars fuel cs with
      | none => none
      | some (s, r) => some (c :: s, r)

/-- Modelled from the spec: the structured encoding (JSON), a value that is not
nested: `null`, a truth value, a number or a string. -/
inductive JValue where
  | null
  | bool (b : Bool)
  | number (n : Number)
  | string (s : String)
  deriving DecidableEq

/-- Modelled from the spec: the structured encoding (JSON), the text of a value. -/
def printValue : JValue → List Char
  | .null => "null".toList
  | .bool true => "true".toList
  | .bool false => "false".toList
  | .number n => printNumber n
  | .string s => quoteString s

/-- Modelled from the spec: the structured encoding (JSON), removing a word from
the beginning of a text that begins with it. -/
def dropWord : List Char → List Char → Option (List Char)
  | [], cs => some cs
  | _ :: _, [] => none
  | w :: ws, c :: cs => if w = c then dropWord ws cs else none

/-- Modelled from the spec: the structured encoding (JSON), reading a value. -/
def parseValue (cs : List Char) : Option (JValue × List Char) :=
  match cs with
  | [] => none
  | c :: r =>
    if c = quoteChar then
      match parseChars (r.length + 1) r with
      | some (s, r1) => some (.string (String.mk s), r1)
      | none => none
    else if c = 'n' then (dropWord "null".toList cs).map (fun r1 => (.null, r1))
    else if c = 't' then (dropWord "true".toList cs).map (fun r1 => (.bool true, r1))
    else if c = 'f' then (dropWord "false".toList cs).map (fun r1 => (.bool false, r1))
    else
      match parseNumber cs with
      | some (n, r1) => some (.number n, r1)
      | none => none

/-- Modelled from the spec: the structured encoding (JSON), skipping white space. -/
def skipSpace : List Char → List Char
  | [] => []
  | c :: cs => if c = ' ' ∨ c = '\t' ∨ c = '\n' ∨ c = '\r' then skipSpace cs else c :: cs

/-- Modelled from the spec: the structured encoding (JSON), the text of a member
of an object: its name, a colon, its value. -/
def printMember (m : String × JValue) : List Char :=
  quoteString m.1 ++ ':' :: printValue m.2

/-- Modelled from the spec: the structured encoding (JSON), the members of an
object, separated by commas. -/
def printMembers : List (String × JValue) → List Char
  | [] => []
  | [m] => printMember m
  | m :: ms => printMember m ++ ',' :: printMembers ms

/-- Modelled from the spec: the structured encoding (JSON), the text of an object. -/
def printObject (ms : List (String × JValue)) : List Char :=
  '{' :: (printMembers ms ++ ['}'])

/-- Modelled from the spec: the structured encoding (JSON), reading the members of
an object up to its closing brace, at most `fuel` of them. -/
def parseMembers : Nat → List Char → Option (List (String × JValue) × List Char)
  | 0, _ => none
  | fuel + 1, cs =>
    match skipSpace cs with
    | [] => none
    | q :: r =>
      if q = quoteChar then
        match parseChars (r.length + 1) r with
        | none => none
        | some (k, r1) =>
          match skipSpace r1 with
          | [] => none
          | colon :: r2 =>
            if colon = ':' then
              match parseValue (skipSpace r2) with
              | none => none
              | some (v, r3) =>
                match skipSpace r3 with
                | [] => none
                | sep :: r4 =>
                  if sep = ',' then
                    match parseMembers fuel r4 with
                    | none => none
                    | some (ms, r5) => some ((String.mk k, v) :: ms, r5)
                  else if sep = '}' then some ([(String.mk k, v)], r4)
                  else none
            else none
      else none

/-- Modelled from the spec: the structured encoding (JSON), reading an object
after its opening brace. -/
def parseObject (cs : List Char) : Option (List (String × JValue) × List Char) :=
  match skipSpace cs with
  | [] => none
  | c :: r => if c = '}' then some ([], r) else parseMembers (cs.length + 1) cs

/-- A text that can follow a value inside an object: it begins with a comma or with
a closing brace. -/
def EndsValue (rest : List Char) : Prop :=
  ∃ c r, rest = c :: r ∧ (c = ',' ∨ c = '}')

/-! ## The structured encoding of the credential: the cookie -/

/-- Modelled from the spec: the `SessionCredential`, the one cookie that is kept.
The browser protocol package that declares the cookie type is not part of the
repository. The credential has a name, a value, and the further attributes of a
cookie: domain, path, expiry, the security flags, and the optional same-site policy,
which may be absent. -/
structure SessionCredential where
  name : String
  value : String
  domain : String
  path : String
  expires : Number
  httpOnly : Bool
  secure : Bool
  sameSite : Option String
  deriving DecidableEq

/-- Modelled from the spec: the credential before anything is decoded into it. -/
def SessionCredential.zero : SessionCredential where
  name := ""
  value := ""
  domain := ""
  path := ""
  expires := { negative := false, whole := 0, fraction := [] }
  httpOnly := false
  secure := false
  sameSite := none

/-- Modelled from the spec: the structured encoding, the members of the JSON object
of a credential; an absent optional attribute has no member. -/
def toMembers (c : SessionCredential) : List (String × JValue) :=
  [("name", .string c.name), ("value", .string c.value), ("domain", .string c.domain),
   ("path", .string c.path), ("expires", .number c.expires), ("httpOnly", .bool c.httpOnly),
   ("secure", .bool c.secure)] ++
    (match c.sameSite with
     | some s => [("sameSite", .string s)]
     | none => [])

/-- Modelled from the spec: the structured encoding, whether the name of a member
is that of an attribute, the case of the letters being ignored. -/
def fieldIs (key : String) (field : String) : Bool :=
  key.toList.map Char.toLower == field.toList.map Char.toLower

/-- Modelled from the spec: the structured encoding, decoding one member into the
credential. A member with an unknown name, or with a value of another kind than the
attribute, changes nothing. -/
def setField (c : SessionCredential) (m : String × JValue) : SessionCredential :=
  if fieldIs m.1 "name" then
    (match m.2 with
     | .string s => { c with name := s }
     | _ => c)
  else if fieldIs m.1 "value" then
    (match m.2 with
     | .string s => { c with value := s }
     | _ => c)
  else if fieldIs m.1 "domain" then
    (match m.2 with
     | .string s => { c with domain := s }
     | _ => c)
  else if fieldIs m.1 "path" then
    (match m.2 with
     | .string s => { c with path := s }
     | _ => c)
  else if fieldIs m.1 "expires" then
    (match m.2 with
     | .number n => { c with expires := n }
     | _ => c)
  else if fieldIs m.1 "httpOnly" then
    (match m.2 with
     | .bool b => { c with httpOnly := b }
     | _ => c)
  else if fieldIs m.1 "secure" then
    (match m.2 with
     | .bool b => { c with secure := b }
     | _ => c)
  else if fieldIs m.1 "sameSite" then
    (match m.2 with
     | .string s => { c with sameSite := some s }
     | _ => c)
  else c

/-- Modelled from the spec: the structured encoding, whether a member carries a
value of another kind than the attribute that it names; `null` fits every attribute. -/
def isMismatch (m : String × JValue) : Bool :=
  match m.2 with
  | .null => false
  | .string _ =>
    fieldIs m.1 "expires" || fieldIs m.1 "httpOnly" || fieldIs m.1 "secure"
  | .number _ =>
    fieldIs m.1 "name" || fieldIs m.1 "value" || fieldIs m.1 "domain" || fieldIs m.1 "path" ||
      fieldIs m.1 "httpOnly" || fieldIs m.1 "secure" || fieldIs m.1 "sameSite"
  | .bool _ =>
    fieldIs m.1 "name" || fieldIs m.1 "value" || fieldIs m.1 "domain" || fieldIs m.1 "path" ||
      fieldIs m.1 "expires" || fieldIs m.1 "sameSite"

/-- Modelled from the spec: the structured encoding, decoding the members of an
object into a credential, one after the other. -/
def fromMembers (ms : List (String × JValue)) : SessionCredential :=
  ms.foldl setField SessionCredential.zero

/-- Modelled from the spec: the structured encoding of a credential, as
`json.Marshal` is used by `saveCookies`: the JSON object of the credential, in UTF-8;
it fails for no credential. -/
def jsonMarshal (c : SessionCredential) : List Byte × Option GoError :=
  (utf8Encode (printObject (toMembers c)), none)

/-- Modelled from the spec: the decoding of the structured encoding into a
credential, as `json.Unmarshal` is used by `loadCookies` with a nil pointer. A text
that is not one JSON value leaves the pointer nil and is an error; `null` leaves it
nil; an object is decoded member by member; any other value gives the empty
credential and an error. Values nested in the object are not read. -/
def jsonUnmarshal (data : List Byte) : Option SessionCredential × Option GoError :=
  match skipSpace (utf8Decode data.length data) with
  | [] => (none, some (.errorString "unexpected end of JSON input"))
  | c :: r =>
    if c = '{' then
      match parseObject r with
      | none => (none, some (.errorString "invalid character in JSON input"))
      | some (ms, rest) =>
        if skipSpace rest = [] then
          (some (fromMembers ms),
           if ms.any isMismatch then
             some (.errorString "json: cannot unmarshal value into field of cookie")
           else none)
        else (none, some (.errorString "invalid character after top-level value"))
    else
      match parseValue (c :: r) with
      | none => (none, some (.errorString "invalid character in JSON input"))
      | some (v, rest) =>
        if skipSpace rest = [] then
          (match v with
           | .null => (none, none)
           | _ => (some SessionCredential.zero,
                   some (.errorString "json: cannot unmarshal value into cookie")))
        else (none, some (.errorString "invalid character after top-level value"))

/-- Modelled from the spec: the cookie type and its structured encoding, in place
of the browser protocol package and of `encoding/json`. -/
def jsonProto : Proto where
  NetworkCookie := SessionCredential
  Name := SessionCredential.name
  Marshal := jsonMarshal
  Unmarshal := jsonUnmarshal

/-! ## Notions used in the statements -/

/-- The text `part` occurs in the text `msg`. -/
def containsText (msg part : String) : Prop := part.toList <:+: msg.toList

/-- The effects of the home directory lookup at the beginning of `loadCookies` and
`saveCookies`: the warning that is printed when the lookup fails, nothing otherwise. -/
def homeWarning {P : Proto} (W : World P) : List (Event P) :=
  match W.home with
  | .ok _ => []
  | .error e => [.message ("Warn: " ++ colored W.yellow e.Error)]

/-- The event is a call to the spinner that reports a failure. -/
def Event.isFailureReport {P : Proto} : Event P → Bool
  | .stopFailMessage _ => true
  | .stopFail => true
  | _ => false

/-- The event is a navigation or a step on the user interface of the page. -/
def Event.isNavigationOrUI {P : Proto} : Event P → Bool
  | .page _ => true
  | .elementR _ _ => true
  | .waitEnabled => true
  | .waitVisible => true
  | .click => true
  | _ => false

/-- The event installs a cookie into the browser session. -/
def Event.isSetCookies {P : Proto} : Event P → Bool
  | .setCookies _ => true
  | _ => false

/-- The event is a warning printed by `errormsg`. -/
def Event.isWarning {P : Proto} : Event P → Bool
  | .message text => "Warn: ".toList.isPrefixOf text.toList
  | _ => false

/-- A piece of the program only adds to the trace of effects. -/
def TraceGrows {P : Proto} {α : Type} (m : Prog P α) : Prop :=
  ∀ st, ∃ added, (m st).2.trace = st.trace ++ added

/-- A piece of the program begins with the effects `first`, whatever follows. -/
def BeginsWith {P : Proto} {α : Type} (first : List (Event P)) (m : Prog P α) : Prop :=
  ∀ st, ∃ later, (m st).2.trace = st.trace ++ first ++ later

/-! ## Theorems: the matcher -/

theorem matchLiteral_iff (l : List Char) (b : Bool) (s : List Char) (k : Cont) :
    matchLiteral l b s k = true ↔ ∃ t, s = l ++ t ∧ k (b && l.isEmpty) t = true := by
  induction l generalizing b s with
  | nil => simp [matchLiteral]
  | cons c cs ih =>
    cases s with
    | nil => simp [matchLiteral]
    | cons x xs =>
      simp only [matchLiteral, Bool.and_eq_true, beq_iff_eq, ih, List.cons_append, List.cons.injEq,
        List.isEmpty_cons, Bool.and_false, Bool.false_and]
      constructor
      · rintro ⟨rfl, t, rfl, h⟩
        exact ⟨t, ⟨rfl, rfl⟩, h⟩
      · rintro ⟨t, ⟨rfl, rfl⟩, h⟩
        exact ⟨rfl, t, rfl, h⟩

theorem matchStar_iff (step : Bool → List Char → Cont → Bool) (P : Char → Prop)
    (hstep : ∀ b s k, step b s k = true ↔ ∃ c cs, s = c :: cs ∧ P c ∧ k false cs = true)
    (n : Nat) (b : Bool) (s : List Char) (k : Cont) (hn : s.length ≤ n) :
    matchStar step n b s k = true ↔
      ∃ p t, s = p ++ t ∧ (∀ c ∈ p, P c) ∧ k (b && p.isEmpty) t = true := by
  induction n generalizing b s with
  | zero =>
    have hs : s = [] := List.length_eq_zero.mp (Nat.le_zero.mp hn)
    subst hs
    simp only [matchStar]
    constructor
    · intro h
      exact ⟨[], [], rfl, by simp, by simpa using h⟩
    · rintro ⟨p, t, hs, _, h⟩
      obtain ⟨rfl, rfl⟩ := List.append_eq_nil.mp hs.symm
      simpa using h
  | succ n ih =>
    simp only [matchStar, Bool.or_eq_true, hstep]
    constructor
    · rintro (h | ⟨c, cs, rfl, hc, hk⟩)
      · exact ⟨[], s, rfl, by simp, by simpa using h⟩
      · simp only [Bool.and_eq_true, decide_eq_true_eq] at hk
        have hx : cs.length ≤ n := by simpa using hn
        obtain ⟨p, t, rfl, hp, hk2⟩ := (ih false cs hx).mp hk.2
        refine ⟨c :: p, t, rfl, ?_, by simpa using hk2⟩
        intro d hd
        rcases List.mem_cons.mp hd with rfl | hd
        · exact hc
        · exact hp d hd
    · rintro ⟨p, t, hs, hp, hk⟩
      cases p with
      | nil =>
        left
        simp only [List.nil_append] at hs
        subst hs
        simpa using hk
      | cons y p =>
        right
        subst hs
        have hx : (p ++ t).length ≤ n := by simpa using hn
        refine ⟨y, p ++ t, rfl, hp y (by simp), ?_⟩
        simp only [Bool.and_eq_true, decide_eq_true_eq]
        refine ⟨by simp, (ih false (p ++ t) hx).mpr ⟨p, t, rfl, fun c hc => hp c (by simp [hc]), ?_⟩⟩
        simpa using hk

theorem matchRep_iff (step : Bool → List Char → Cont → Bool) (P : Char → Prop)
    (hstep : ∀ b s k, step b s k = true ↔ ∃ c cs, s = c :: cs ∧ P c ∧ k false cs = true)
    (n : Nat) (b : Bool) (s : List Char) (k : Cont) :
    matchRep step n b s k = true ↔
      ∃ g t, s = g ++ t ∧ g.length = n ∧ (∀ c ∈ g, P c) ∧ k (b && g.isEmpty) t = true := by
  induction n generalizing b s with
  | zero =>
    simp only [matchRep, List.length_eq_zero]
    constructor
    · intro h
      exact ⟨[], s, rfl, rfl, by simp, by simpa using h⟩
    · rintro ⟨g, t, rfl, rfl, _, h⟩
      simpa using h
  | succ n ih =>
    simp only [matchRep, hstep]
    constructor
    · rintro ⟨c, cs, rfl, hc, hk⟩
      obtain ⟨g, t, rfl, rfl, hg, hk2⟩ := (ih false cs).mp hk
      refine ⟨c :: g, t, rfl, rfl, ?_, by simpa using hk2⟩
      intro d hd
      rcases List.mem_cons.mp hd with rfl | hd
      · exact hc
      · exact hg d hd
    · rintro ⟨g, t, hs, hl, hg, hk⟩
      cases g with
      | nil => simp at hl
      | cons y g =>
        subst hs
        refine ⟨y, g ++ t, rfl, hg y (by simp), (ih false (g ++ t)).mpr ⟨g, t, rfl, by simpa using hl, fun c hc => hg c (by simp [hc]), ?_⟩⟩
        simpa using hk

theorem matchFrom_any_iff (b : Bool) (s : List Char) (k : Cont) :
    matchFrom .anyCharNotNL b s k = true ↔ ∃ c cs, s = c :: cs ∧ c ≠ '\n' ∧ k false cs = true := by
  cases s with
  | nil => simp [matchFrom]
  | cons x xs =>
    simp only [matchFrom, Bool.and_eq_true, bne_iff_ne, ne_eq, List.cons.injEq]
    constructor
    · rintro ⟨h1, h2⟩
      exact ⟨x, xs, ⟨rfl, rfl⟩, h1, h2⟩
    · rintro ⟨c, cs, ⟨rfl, rfl⟩, h1, h2⟩
      exact ⟨h1, h2⟩

theorem matchFrom_class_iff (lo hi : Char) (b : Bool) (s : List Char) (k : Cont) :
    matchFrom (.charClass lo hi) b s k = true ↔
      ∃ c cs, s = c :: cs ∧ (lo ≤ c ∧ c ≤ hi) ∧ k false cs = true := by
  cases s with
  | nil => simp [matchFrom]
  | cons x xs =>
    simp only [matchFrom, Bool.and_eq_true, decide_eq_true_eq, List.cons.injEq]
    constructor
    · rintro ⟨h1, h2⟩
      exact ⟨x, xs, ⟨rfl, rfl⟩, h1, h2⟩
    · rintro ⟨c, cs, ⟨rfl, rfl⟩, h1, h2⟩
      exact ⟨h1, h2⟩

theorem matchFrom_concat (r₁ r₂ : Regexp) (b : Bool) (s : List Char) (k : Cont) :
    matchFrom (.concat r₁ r₂) b s k = matchFrom r₁ b s (fun b1 s1 => matchFrom r₂ b1 s1 k) := rfl

theorem matchFrom_capture (r : Regexp) (b : Bool) (s : List Char) (k : Cont) :
    matchFrom (.capture r) b s k = matchFrom r b s k := rfl

theorem matchFrom_quest (r : Regexp) (b : Bool) (s : List Char) (k : Cont) :
    matchFrom (.quest r) b s k = (matchFrom r b s k || k b s) := rfl

theorem matchFrom_beginText (b : Bool) (s : List Char) (k : Cont) :
    matchFrom .beginText b s k = (b && k b s) := rfl

theorem matchFrom_literal (l : List Char) (b : Bool) (s : List Char) (k : Cont) :
    matchFrom (.literal l) b s k = matchLiteral l b s k := rfl

theorem matchFrom_rep_two (r : Regexp) (b : Bool) (s : List Char) (k : Cont) :
    matchFrom (.rep 2 r) b s k = matchFrom r b s (fun b1 s1 => matchFrom r b1 s1 k) := rfl

theorem matchFrom_star_any_iff (b : Bool) (s : List Char) (k : Cont) :
    matchFrom (.star .anyCharNotNL) b s k = true ↔
      ∃ p t, s = p ++ t ∧ (∀ c ∈ p, c ≠ '\n') ∧ k (b && p.isEmpty) t = true :=
  matchStar_iff _ _ matchFrom_any_iff _ _ _ _ le_rfl

theorem matchFrom_rep_class_iff (lo hi : Char) (n : Nat) (b : Bool) (s : List Char) (k : Cont) :
    matchFrom (.rep n (.charClass lo hi)) b s k = true ↔
      ∃ g t, s = g ++ t ∧ g.length = n ∧ (∀ c ∈ g, lo ≤ c ∧ c ≤ hi) ∧
        k (b && g.isEmpty) t = true :=
  matchRep_iff _ _ (matchFrom_class_iff lo hi) _ _ _ _

/-- One group of the pattern: four capitals and an optional hyphen. -/
theorem matchFrom_group_iff (b : Bool) (s : List Char) (k : Cont) :
    matchFrom (.capture (.concat (.rep 4 (.charClass 'A' 'Z')) (.quest (.literal ['-'])))) b s k
        = true ↔
      ∃ g h t, s = g ++ (h ++ t) ∧ (g.length = 4 ∧ ∀ c ∈ g, 'A' ≤ c ∧ c ≤ 'Z') ∧
        (h = [] ∨ h = ['-']) ∧ k false t = true := by
  simp only [matchFrom_capture, matchFrom_concat, matchFrom_rep_class_iff, matchFrom_quest,
    matchFrom_literal, Bool.or_eq_true, matchLiteral_iff]
  constructor
  · rintro ⟨g, t, rfl, hl, hg, h | h⟩
    · obtain ⟨u, rfl, hk⟩ := h
      exact ⟨g, ['-'], u, rfl, ⟨hl, hg⟩, Or.inr rfl, by simpa using hk⟩
    · have hne : g.isEmpty = false := by
        cases g with
        | nil => simp at hl
        | cons a g => rfl
      exact ⟨g, [], t, rfl, ⟨hl, hg⟩, Or.inl rfl, by simpa [hne] using h⟩
  · rintro ⟨g, h, t, rfl, ⟨hl, hg⟩, rfl | rfl, hk⟩
    · have hne : g.isEmpty = false := by
        cases g with
        | nil => simp at hl
        | cons a g => rfl
      exact ⟨g, t, rfl, hl, hg, Or.inr (by simpa [hne] using hk)⟩
    · exact ⟨g, ['-'] ++ t, rfl, hl, hg, Or.inl ⟨t, rfl, by simpa using hk⟩⟩

/-- What the compiled pattern accepts at the start of a text. -/
theorem matchFrom_urlPattern_iff (b : Bool) (s : List Char) :
    matchFrom urlPattern b s (fun _ _ => true) = true ↔
      b = true ∧ ∃ mid g₁ h₁ g₂ h₂ t,
        s = "https".toList ++ (mid ++ ("user_code=".toList ++ (g₁ ++ (h₁ ++ (g₂ ++ (h₂ ++ t)))))) ∧
        (∀ c ∈ mid, c ≠ '\n') ∧
        (g₁.length = 4 ∧ ∀ c ∈ g₁, 'A' ≤ c ∧ c ≤ 'Z') ∧ (h₁ = [] ∨ h₁ = ['-']) ∧
        (g₂.length = 4 ∧ ∀ c ∈ g₂, 'A' ≤ c ∧ c ≤ 'Z') ∧ (h₂ = [] ∨ h₂ = ['-']) := by
  unfold urlPattern
  simp only [matchFrom_concat, matchFrom_beginText, matchFrom_literal, matchFrom_rep_two,
    Bool.and_eq_true, matchLiteral_iff, matchFrom_star_any_iff, matchFrom_group_iff]
  constructor
  · rintro ⟨hb, t1, rfl, p, t2, rfl, hp, t3, rfl, g₁, h₁, t4, rfl, hg₁, hh₁, g₂, h₂, t, rfl, hg₂, hh₂, -⟩
    exact ⟨hb, p, g₁, h₁, g₂, h₂, t, rfl, hp, hg₁, hh₁, hg₂, hh₂⟩
  · rintro ⟨hb, p, g₁, h₁, g₂, h₂, t, rfl, hp, hg₁, hh₁, hg₂, hh₂⟩
    exact ⟨hb, _, rfl, p, _, rfl, hp, _, rfl, g₁, h₁, _, rfl, hg₁, hh₁, g₂, h₂, t, rfl, hg₂, hh₂, trivial⟩


/-- The pattern begins with `^`: it matches nowhere but at the beginning of the text. -/
theorem searchFrom_urlPattern_false (s : List Char) : searchFrom urlPattern false s = false := by
  induction s with
  | nil =>
    have h := matchFrom_urlPattern_iff false []
    simp only [searchFrom]
    cases hm : matchFrom urlPattern false [] (fun _ _ => true)
    · rfl
    · exact absurd (h.mp hm).1 (by simp)
  | cons c cs ih =>
    have h := matchFrom_urlPattern_iff false (c :: cs)
    simp only [searchFrom, ih, Bool.or_false]
    cases hm : matchFrom urlPattern false (c :: cs) (fun _ _ => true)
    · rfl
    · exact absurd (h.mp hm).1 (by simp)

theorem matchString_urlPattern (line : String) :
    urlPattern.MatchString line = matchFrom urlPattern true line.toList (fun _ _ => true) := by
  unfold Regexp.MatchString
  cases line.toList with
  | nil => rfl
  | cons c cs => simp [searchFrom, searchFrom_urlPattern_false]

/-- The lines that `MatchString` accepts, exactly: the accepted line of the
specification, with no line feed between `https` and `user_code=`. -/
theorem matchString_urlPattern_iff (line : String) :
    urlPattern.MatchString line = true ↔
      ∃ mid g₁ hy g₂ tail,
        line.toList = "https".toList ++ mid ++ "user_code=".toList ++ g₁ ++ hy ++ g₂ ++ tail ∧
        (∀ c ∈ mid, c ≠ '\n') ∧
        (g₁.length = 4 ∧ ∀ c ∈ g₁, isUpperLetter c) ∧ (hy = [] ∨ hy = ['-']) ∧
        (g₂.length = 4 ∧ ∀ c ∈ g₂, isUpperLetter c) := by
  rw [matchString_urlPattern, matchFrom_urlPattern_iff]
  constructor
  · rintro ⟨-, mid, g₁, h₁, g₂, h₂, t, hs, hmid, hg₁, hh₁, hg₂, -⟩
    exact ⟨mid, g₁, h₁, g₂, h₂ ++ t, by rw [hs]; simp only [List.append_assoc], hmid, hg₁, hh₁, hg₂⟩
  · rintro ⟨mid, g₁, hy, g₂, tail, hs, hmid, hg₁, hh₁, hg₂⟩
    exact ⟨rfl, mid, g₁, hy, g₂, [], tail, by rw [hs]; simp only [List.append_assoc, List.nil_append], hmid, hg₁, hh₁, hg₂, Or.inl rfl⟩

theorem specAccepted_of_matchString (line : String) (h : urlPattern.MatchString line = true) :
    SpecAcceptedLine line.toList := by
  obtain ⟨mid, g₁, hy, g₂, tail, hs, -, hg₁, hh₁, hg₂⟩ := (matchString_urlPattern_iff line).mp h
  exact ⟨mid, g₁, hy, g₂, tail, hs, hg₁, hh₁, hg₂⟩

theorem matchString_of_specAccepted (line : String) (hline : '\n' ∉ line.toList)
    (h : SpecAcceptedLine line.toList) : urlPattern.MatchString line = true := by
  obtain ⟨mid, g₁, hy, g₂, tail, hs, hg₁, hh₁, hg₂⟩ := h
  refine (matchString_urlPattern_iff line).mpr ⟨mid, g₁, hy, g₂, tail, hs, ?_, hg₁, hh₁, hg₂⟩
  intro c hc hcn
  apply hline
  rw [hs, ← hcn]
  simp [hc]

/-! ## Theorems: the scan loop -/

theorem matchString_empty : urlPattern.MatchString "" = false := by decide

theorem ne_empty_of_matchString (l : String) (h : urlPattern.MatchString l = true) : l ≠ "" := by
  rintro rfl
  rw [matchString_empty] at h
  exact absurd h (by simp)

theorem loopBody_reject (l : String) (ls : List String) (tok : String)
    (h : urlPattern.MatchString l = false) :
    loopBody { scanner := { input := l :: ls, token := tok }, url := "" } =
      { scanner := { input := ls, token := l }, url := "" } := by
  simp [loopBody, Scanner.Scan, Scanner.Text, h]

theorem loopBody_accept (l : String) (ls : List String) (tok : String)
    (h : urlPattern.MatchString l = true) :
    loopBody { scanner := { input := l :: ls, token := tok }, url := "" } =
      { scanner := { input := ls, token := l }, url := l } := by
  simp [loopBody, Scanner.Scan, Scanner.Text, h]

theorem loopBody_eof (tok : String) :
    loopBody { scanner := { input := [], token := tok }, url := "" } =
      { scanner := { input := [], token := "" }, url := "" } := by
  simp [loopBody, Scanner.Scan, Scanner.Text, matchString_empty]

/-- The loop over a stream whose first accepted line is `l`: it stops after reading
`l`, whatever token the scanner held before. -/
theorem scanLoop_first_match (before : List String) (l : String) (after : List String)
    (hbefore : ∀ x ∈ before, urlPattern.MatchString x = false)
    (hl : urlPattern.MatchString l = true) (tok : String) (fuel : Nat)
    (hfuel : before.length + 1 ≤ fuel) :
    scanLoop fuel { scanner := { input := before ++ l :: after, token := tok }, url := "" } =
      some { scanner := { input := after, token := l }, url := l } := by
  induction before generalizing tok fuel with
  | nil =>
    obtain ⟨n, rfl⟩ : ∃ n, fuel = n + 1 := ⟨fuel - 1, by simp at hfuel; omega⟩
    simp only [List.nil_append, scanLoop, if_true, loopBody_accept l after tok hl]
    have hne := ne_empty_of_matchString l hl
    cases n <;> simp [scanLoop, hne]
  | cons x xs ih =>
    obtain ⟨n, rfl⟩ : ∃ n, fuel = n + 1 := ⟨fuel - 1, by simp at hfuel; omega⟩
    have hx : urlPattern.MatchString x = false := hbefore x (by simp)
    simp only [List.cons_append, scanLoop, if_true, loopBody_reject x _ tok hx]
    exact ih (fun y hy => hbefore y (by simp [hy])) x n (by simpa using hfuel)

/-- With too little fuel the loop is still running. -/
theorem scanLoop_running (input : List String) (tok : String) (fuel : Nat)
    (hinput : ∀ x ∈ input.take fuel, urlPattern.MatchString x = false) :
    scanLoop fuel { scanner := { input := input, token := tok }, url := "" } = none := by
  induction fuel generalizing input tok with
  | zero => simp [scanLoop]
  | succ n ih =>
    cases input with
    | nil =>
      simp only [scanLoop, if_true, loopBody_eof]
      exact ih [] "" (by simp)
    | cons x xs =>
      have hx : urlPattern.MatchString x = false := hinput x (by simp)
      simp only [scanLoop, if_true, loopBody_reject x xs tok hx]
      exact ih xs x (fun y hy => hinput y (by simp [hy]))

/-- The state after `n` iterations over a stream without an accepted line. -/
theorem iterate_loopBody_reject (input : List String) (tok : String) (n : Nat)
    (hinput : ∀ x ∈ input, urlPattern.MatchString x = false) :
    ∃ tok1, Nat.iterate loopBody n { scanner := { input := input, token := tok }, url := "" } =
      { scanner := { input := input.drop n, token := tok1 }, url := "" } := by
  induction n generalizing input tok with
  | zero => exact ⟨tok, rfl⟩
  | succ n ih =>
    cases input with
    | nil =>
      obtain ⟨tok1, h⟩ := ih [] "" (by simp)
      exact ⟨tok1, by simpa [Function.iterate_succ, loopBody_eof] using h⟩
    | cons x xs =>
      have hx : urlPattern.MatchString x = false := hinput x (by simp)
      obtain ⟨tok1, h⟩ := ih xs x (fun y hy => hinput y (by simp [hy]))
      exact ⟨tok1, by simpa [Function.iterate_succ, loopBody_reject x xs tok hx] using h⟩


theorem scanLoop_of_url_ne (fuel : Nat) (st : ScanLoop) (h : st.url ≠ "") :
    scanLoop fuel st = some st := by
  cases fuel <;> simp [scanLoop, h]

/-- Whatever the loop returns was a line of the input, and an accepted one. -/
theorem scanLoop_result (fuel : Nat) (input : List String) (tok : String) (st : ScanLoop)
    (h : scanLoop fuel { scanner := { input := input, token := tok }, url := "" } = some st) :
    st.url ∈ input ∧ urlPattern.MatchString st.url = true := by
  induction fuel generalizing input tok with
  | zero => simp [scanLoop] at h
  | succ n ih =>
    cases input with
    | nil =>
      simp only [scanLoop, if_true, loopBody_eof] at h
      exact absurd (ih [] "" h).1 (by simp)
    | cons x xs =>
      cases hx : urlPattern.MatchString x with
      | false =>
        simp only [scanLoop, if_true, loopBody_reject x xs tok hx] at h
        obtain ⟨h1, h2⟩ := ih xs x h
        exact ⟨by simp [h1], h2⟩
      | true =>
        simp only [scanLoop, if_true, loopBody_accept x xs tok hx] at h
        rw [scanLoop_of_url_ne n _ (ne_empty_of_matchString x hx)] at h
        cases h
        exact ⟨by simp, hx⟩

/-! ## Theorems: base64 -/

theorem or_eq_add_of_dvd (i x y : Nat) (hx : 2 ^ i ∣ x) (hy : y < 2 ^ i) : x ||| y = x + y := by
  obtain ⟨q, rfl⟩ := hx
  exact (Nat.mul_add_lt_is_or hy q).symm

theorem pack3 (a b c : Nat) (hb : b < 256) (hc : c < 256) :
    a <<< 16 ||| b <<< 8 ||| c = a * 65536 + b * 256 + c := by
  simp only [Nat.shiftLeft_eq]
  rw [or_eq_add_of_dvd 16 (a * 2 ^ 16) (b * 2 ^ 8) (Dvd.intro_left _ rfl) (by omega)]
  rw [or_eq_add_of_dvd 8 (a * 2 ^ 16 + b * 2 ^ 8) c ⟨a * 2 ^ 8 + b, by ring⟩ (by omega)]
  norm_num

theorem pack4 (s0 s1 s2 s3 : Nat) (h1 : s1 < 64) (h2 : s2 < 64) (h3 : s3 < 64) :
    s0 <<< 18 ||| s1 <<< 12 ||| s2 <<< 6 ||| s3 = s0 * 262144 + s1 * 4096 + s2 * 64 + s3 := by
  simp only [Nat.shiftLeft_eq]
  rw [or_eq_add_of_dvd 18 (s0 * 2 ^ 18) (s1 * 2 ^ 12) (Dvd.intro_left _ rfl) (by omega)]
  rw [or_eq_add_of_dvd 12 (s0 * 2 ^ 18 + s1 * 2 ^ 12) (s2 * 2 ^ 6) ⟨s0 * 2 ^ 6 + s1, by ring⟩
    (by omega)]
  rw [or_eq_add_of_dvd 6 (s0 * 2 ^ 18 + s1 * 2 ^ 12 + s2 * 2 ^ 6) s3
    ⟨s0 * 2 ^ 12 + s1 * 2 ^ 6 + s2, by ring⟩ (by omega)]
  norm_num

theorem and_0x3F (x : Nat) : x &&& 0x3F = x % 64 :=
  Nat.and_pow_two_sub_one_eq_mod x 6

theorem encodeStd_length : encodeStd.length = 64 := by decide

theorem decodeMap_encodeChar (i : Nat) (hi : i < 64) : decodeMap (encodeChar i) = some i := by
  have h : ∀ j : Fin 64, decodeMap (encodeChar j.val) = some j.val := by decide
  exact h ⟨i, hi⟩

theorem decodeMap_padChar : decodeMap padChar = none := by decide

theorem padChar_not_newline : ¬ (padChar = 10 ∨ padChar = 13) := by decide

/-- The digits of three bytes, decoded again, are the three bytes. -/
theorem quantumBytes_full (a b c : Byte) :
    quantumBytes
      [(a.val <<< 16 ||| b.val <<< 8 ||| c.val) >>> 18 &&& 0x3F,
       (a.val <<< 16 ||| b.val <<< 8 ||| c.val) >>> 12 &&& 0x3F,
       (a.val <<< 16 ||| b.val <<< 8 ||| c.val) >>> 6 &&& 0x3F,
       (a.val <<< 16 ||| b.val <<< 8 ||| c.val) &&& 0x3F] 4 = [a, b, c] := by
  have ha := a.isLt
  have hb := b.isLt
  have hc := c.isLt
  simp only [quantumBytes, List.getD_cons_zero, List.getD_cons_succ, and_0x3F,
    pack3 a.val b.val c.val hb hc, Nat.shiftRight_eq_div_pow]
  rw [pack4 _ _ _ _ (Nat.mod_lt _ (by decide)) (Nat.mod_lt _ (by decide))
    (Nat.mod_lt _ (by decide))]
  simp only [toByte, List.take, Nat.reduceSub, List.cons.injEq, and_true]
  refine ⟨Fin.ext ?_, Fin.ext ?_, Fin.ext ?_⟩ <;> simp only [] <;> omega


theorem pack2 (a b : Nat) (hb : b < 256) : a <<< 16 ||| b <<< 8 = a * 65536 + b * 256 := by
  simp only [Nat.shiftLeft_eq]
  rw [or_eq_add_of_dvd 16 (a * 2 ^ 16) (b * 2 ^ 8) (Dvd.intro_left _ rfl) (by omega)]
  norm_num

/-- The digits of a last block of two bytes, decoded again, are the two bytes. -/
theorem quantumBytes_two (a b : Byte) :
    quantumBytes
      [(a.val <<< 16 ||| b.val <<< 8) >>> 18 &&& 0x3F,
       (a.val <<< 16 ||| b.val <<< 8) >>> 12 &&& 0x3F,
       (a.val <<< 16 ||| b.val <<< 8) >>> 6 &&& 0x3F] 3 = [a, b] := by
  have ha := a.isLt
  have hb := b.isLt
  simp only [quantumBytes, List.getD_cons_zero, List.getD_cons_succ, List.getD_nil, and_0x3F,
    pack2 a.val b.val hb, Nat.shiftRight_eq_div_pow]
  rw [pack4 _ _ _ _ (Nat.mod_lt _ (by decide)) (Nat.mod_lt _ (by decide)) (by decide)]
  simp only [toByte, List.take, Nat.reduceSub, List.cons.injEq, and_true]
  refine ⟨Fin.ext ?_, Fin.ext ?_⟩ <;> simp only [] <;> omega

/-- The digits of a last block of one byte, decoded again, are that byte. -/
theorem quantumBytes_one (a : Byte) :
    quantumBytes [(a.val <<< 16) >>> 18 &&& 0x3F, (a.val <<< 16) >>> 12 &&& 0x3F] 2 = [a] := by
  have ha := a.isLt
  simp only [quantumBytes, List.getD_cons_zero, List.getD_cons_succ, List.getD_nil, and_0x3F,
    Nat.shiftRight_eq_div_pow]
  rw [pack4 _ _ _ _ (Nat.mod_lt _ (by decide)) (by decide) (by decide)]
  simp only [toByte, List.take, Nat.reduceSub, List.cons.injEq, and_true, Nat.shiftLeft_eq]
  refine Fin.ext ?_
  simp only []
  omega

theorem decodeQuantum_full (i0 i1 i2 i3 : Nat) (h0 : i0 < 64) (h1 : i1 < 64) (h2 : i2 < 64)
    (h3 : i3 < 64) (rest : List Byte) :
    decodeQuantum [] (encodeChar i0 :: encodeChar i1 :: encodeChar i2 :: encodeChar i3 :: rest) =
      { rest := rest, out := quantumBytes [i0, i1, i2, i3] 4, err := false } := by
  simp [decodeQuantum, decodeMap_encodeChar, h0, h1, h2, h3]

theorem decodeQuantum_two (i0 i1 i2 : Nat) (h0 : i0 < 64) (h1 : i1 < 64) (h2 : i2 < 64) :
    decodeQuantum [] [encodeChar i0, encodeChar i1, encodeChar i2, padChar] =
      { rest := [], out := quantumBytes [i0, i1, i2] 3, err := false } := by
  simp [decodeQuantum, decodeMap_encodeChar, h0, h1, h2, decodeMap_padChar, finishPadded,
    skipNewlines, padChar_not_newline]

theorem decodeQuantum_one (i0 i1 : Nat) (h0 : i0 < 64) (h1 : i1 < 64) :
    decodeQuantum [] [encodeChar i0, encodeChar i1, padChar, padChar] =
      { rest := [], out := quantumBytes [i0, i1] 2, err := false } := by
  simp [decodeQuantum, decodeMap_encodeChar, h0, h1, decodeMap_padChar, finishPadded,
    skipNewlines, padChar_not_newline]

theorem and_0x3F_lt (x : Nat) : x &&& 0x3F < 64 := by
  rw [and_0x3F]
  exact Nat.mod_lt _ (by decide)

/-- Decoding what `EncodeToString` produced gives the bytes back, without an error,
as soon as there is fuel for a third of their number, rounded up. -/
theorem Decode_EncodeToString (bs : List Byte) (fuel : Nat) (hfuel : bs.length ≤ 3 * fuel) :
    Decode fuel (EncodeToString bs) = (bs, false) := by
  induction fuel generalizing bs with
  | zero =>
    have : bs = [] := List.length_eq_zero.mp (by omega)
    subst this
    rfl
  | succ n ih =>
    match bs, hfuel with
    | [], _ => rfl
    | [a], _ =>
      simp only [EncodeToString, Decode,
        decodeQuantum_one _ _ (and_0x3F_lt _) (and_0x3F_lt _), quantumBytes_one]
      cases n <;> simp [Decode]
    | [a, b], _ =>
      simp only [EncodeToString, Decode,
        decodeQuantum_two _ _ _ (and_0x3F_lt _) (and_0x3F_lt _) (and_0x3F_lt _), quantumBytes_two]
      cases n <;> simp [Decode]
    | a :: b :: c :: rest, h =>
      have hrest : rest.length ≤ 3 * n := by
        simp only [List.length_cons] at h
        omega
      simp only [EncodeToString, Decode,
        decodeQuantum_full _ _ _ _ (and_0x3F_lt _) (and_0x3F_lt _) (and_0x3F_lt _) (and_0x3F_lt _),
        quantumBytes_full, ih rest hrest]
      simp

theorem length_EncodeToString (bs : List Byte) :
    (EncodeToString bs).length = 4 * ((bs.length + 2) / 3) := by
  match bs with
  | [] => rfl
  | [a] => simp [EncodeToString]
  | [a, b] => simp [EncodeToString]
  | a :: b :: c :: rest =>
    simp only [EncodeToString, List.length_cons, length_EncodeToString rest]
    omega

/-- The base64 round trip: `DecodeString (EncodeToString bs)` is `bs`, with no error. -/
theorem DecodeString_EncodeToString (bs : List Byte) :
    DecodeString (EncodeToString bs) = (bs, false) := by
  unfold DecodeString
  apply Decode_EncodeToString
  rw [length_EncodeToString]
  omega


theorem skipNewlines_length_le (src : List Byte) : (skipNewlines src).length ≤ src.length := by
  induction src with
  | nil => simp [skipNewlines]
  | cons c cs ih =>
    unfold skipNewlines
    split
    · exact Nat.le_succ_of_le ih
    · exact Nat.le_refl _

/-- A quantum never gives back more source than it was given. -/
theorem decodeQuantum_rest_le (dbuf : List Nat) (src : List Byte) :
    (decodeQuantum dbuf src).rest.length ≤ src.length := by
  induction src generalizing dbuf with
  | nil =>
    unfold decodeQuantum
    split <;> simp
  | cons c cs ih =>
    have hs := skipNewlines_length_le cs
    unfold decodeQuantum
    split
    · split
      · simp
      · exact Nat.le_succ_of_le (ih _)
    · split
      · exact Nat.le_succ_of_le (ih _)
      · split
        · simp
        · split
          · simp
          · simp
          · split
            · simp
            · rename_i d src1 hsk
              have hlen : (d :: src1).length ≤ cs.length := hsk ▸ hs
              split
              · exact Nat.le_succ_of_le hlen
              · have h1 := skipNewlines_length_le src1
                simp only [finishPadded, List.length_cons] at hlen ⊢
                omega
          · simp only [finishPadded, List.length_cons]
            omega

/-- A quantum that is given some source consumes at least one byte of it. -/
theorem decodeQuantum_rest_lt (dbuf : List Nat) (c : Byte) (src : List Byte) :
    (decodeQuantum dbuf (c :: src)).rest.length ≤ src.length := by
  have hs := skipNewlines_length_le src
  unfold decodeQuantum
  split
  · split
    · simp
    · exact decodeQuantum_rest_le _ _
  · split
    · exact decodeQuantum_rest_le _ _
    · split
      · simp
      · split
        · simp
        · simp
        · split
          · simp
          · rename_i d src1 hsk
            have hlen : (d :: src1).length ≤ src.length := hsk ▸ hs
            split
            · exact hlen
            · have h1 := skipNewlines_length_le src1
              simp only [finishPadded, List.length_cons] at hlen ⊢
              omega
        · simpa only [finishPadded] using hs

/-- The fuel that `DecodeString` gives to `Decode` is enough: more fuel changes
nothing. -/
theorem Decode_fuel (fuel : Nat) (src : List Byte) (h : src.length ≤ fuel) :
    Decode fuel src = Decode src.length src := by
  induction fuel using Nat.strong_induction_on generalizing src with
  | _ fuel ih =>
    cases src with
    | nil => cases fuel <;> rfl
    | cons c cs =>
      obtain ⟨n, rfl⟩ : ∃ n, fuel = n + 1 := ⟨fuel - 1, by simp at h; omega⟩
      have hq := decodeQuantum_rest_lt [] c cs
      have hn : cs.length ≤ n := by simpa using h
      simp only [Decode, List.length_cons]
      rw [ih n (Nat.lt_succ_self n) _ (Nat.le_trans hq hn)]
      by_cases hlt : cs.length < n + 1
      · have := ih cs.length (by omega) (decodeQuantum [] (c :: cs)).rest hq
        rw [this]
      · omega

/-! ## Theorems: UTF-8 -/

theorem char_toNat_valid (c : Char) :
    c.toNat < 0xD800 ∨ (0xDFFF < c.toNat ∧ c.toNat < 0x110000) := c.valid

theorem toByte_val (n : Nat) (h : n < 256) : (toByte n).val = n := Nat.mod_eq_of_lt h

/-- Decoding the bytes of a character gives the character back. -/
theorem decodeRune_utf8EncodeChar (c : Char) (tail : List Byte) :
    ∃ b0 bs, utf8EncodeChar c = b0 :: bs ∧ decodeRune b0 (bs ++ tail) = (c, tail) := by
  have hv := char_toNat_valid c
  unfold utf8EncodeChar
  by_cases h1 : c.toNat < 0x80
  · refine ⟨_, _, by rw [if_pos h1], ?_⟩
    have hb : (toByte c.toNat).val = c.toNat := toByte_val _ (by omega)
    simp only [decodeRune, hb, h1, if_true, List.nil_append, Char.ofNat_toNat]
  · by_cases h2 : c.toNat < 0x800
    · refine ⟨_, _, by rw [if_neg h1, if_pos h2], ?_⟩
      have hb0 : (toByte (0xC0 + c.toNat / 64)).val = 0xC0 + c.toNat / 64 :=
        toByte_val _ (by omega)
      have hb1 : (toByte (0x80 + c.toNat % 64)).val = 0x80 + c.toNat % 64 :=
        toByte_val _ (by omega)
      have hn : (0xC0 + c.toNat / 64 - 0xC0) * 64 + (0x80 + c.toNat % 64 - 0x80) = c.toNat := by
        omega
      simp only [decodeRune, hb0, hb1, isContinuation, hn, List.cons_append, List.nil_append,
        Char.ofNat_toNat]
      rw [if_neg (by omega), if_pos (by omega), if_pos]
      refine ⟨by omega, ?_, by omega⟩
      simp only [Bool.and_eq_true, decide_eq_true_eq]
      omega
    · by_cases h3 : c.toNat < 0x10000
      · refine ⟨_, _, by rw [if_neg h1, if_neg h2, if_pos h3], ?_⟩
        have hb0 : (toByte (0xE0 + c.toNat / 4096)).val = 0xE0 + c.toNat / 4096 :=
          toByte_val _ (by omega)
        have hb1 : (toByte (0x80 + c.toNat / 64 % 64)).val = 0x80 + c.toNat / 64 % 64 :=
          toByte_val _ (by omega)
        have hb2 : (toByte (0x80 + c.toNat % 64)).val = 0x80 + c.toNat % 64 :=
          toByte_val _ (by omega)
        have hn : (0xE0 + c.toNat / 4096 - 0xE0) * 4096 + (0x80 + c.toNat / 64 % 64 - 0x80) * 64 +
            (0x80 + c.toNat % 64 - 0x80) = c.toNat := by
          omega
        simp only [decodeRune, hb0, hb1, hb2, isContinuation, hn, List.cons_append,
          List.nil_append, Char.ofNat_toNat]
        rw [if_neg (by omega), if_neg (by omega), if_pos (by omega), if_pos]
        refine ⟨?_, ?_, by omega, by omega⟩ <;>
          simp only [Bool.and_eq_true, decide_eq_true_eq] <;> omega
      · refine ⟨_, _, by rw [if_neg h1, if_neg h2, if_neg h3], ?_⟩
        have hb0 : (toByte (0xF0 + c.toNat / 262144)).val = 0xF0 + c.toNat / 262144 :=
          toByte_val _ (by omega)
        have hb1 : (toByte (0x80 + c.toNat / 4096 % 64)).val = 0x80 + c.toNat / 4096 % 64 :=
          toByte_val _ (by omega)
        have hb2 : (toByte (0x80 + c.toNat / 64 % 64)).val = 0x80 + c.toNat / 64 % 64 :=
          toByte_val _ (by omega)
        have hb3 : (toByte (0x80 + c.toNat % 64)).val = 0x80 + c.toNat % 64 :=
          toByte_val _ (by omega)
        have hn : (0xF0 + c.toNat / 262144 - 0xF0) * 262144 +
            (0x80 + c.toNat / 4096 % 64 - 0x80) * 4096 + (0x80 + c.toNat / 64 % 64 - 0x80) * 64 +
            (0x80 + c.toNat % 64 - 0x80) = c.toNat := by
          omega
        simp only [decodeRune, hb0, hb1, hb2, hb3, isContinuation, hn, List.cons_append,
          List.nil_append, Char.ofNat_toNat]
        rw [if_neg (by omega), if_neg (by omega), if_neg (by omega), if_pos]
        refine ⟨by omega, ?_, ?_, ?_, by omega, by omega⟩ <;>
          simp only [Bool.and_eq_true, decide_eq_true_eq] <;> omega

theorem utf8EncodeChar_length_pos (c : Char) : 0 < (utf8EncodeChar c).length := by
  unfold utf8EncodeChar
  split_ifs <;> simp

/-- Decoding the bytes of a text gives the text back, with fuel for its characters. -/
theorem utf8Decode_utf8Encode (cs : List Char) (fuel : Nat) (h : cs.length ≤ fuel) :
    utf8Decode fuel (utf8Encode cs) = cs := by
  induction cs generalizing fuel with
  | nil => cases fuel <;> rfl
  | cons c cs ih =>
    obtain ⟨n, rfl⟩ : ∃ n, fuel = n + 1 := ⟨fuel - 1, by simp at h; omega⟩
    obtain ⟨b0, bs, he, hd⟩ := decodeRune_utf8EncodeChar c (utf8Encode cs)
    simp only [utf8Encode, he, List.cons_append, utf8Decode, hd]
    rw [ih n (by simpa using h)]

theorem length_le_utf8Encode (cs : List Char) : cs.length ≤ (utf8Encode cs).length := by
  induction cs with
  | nil => simp [utf8Encode]
  | cons c cs ih =>
    have := utf8EncodeChar_length_pos c
    simp only [utf8Encode, List.length_cons, List.length_append]
    omega
/-! ## Theorems: JSON numbers -/

theorem toNat_ofNat_of_lt (n : Nat) (h : n < 0xD800) : (Char.ofNat n).toNat = n := by
  have hv : n.isValidChar := Or.inl h
  simp only [Char.ofNat, hv, dite_true, Char.ofNatAux, Char.toNat]
  rfl

theorem digitChar_toNat (d : Nat) (h : d < 10) : (digitChar d).toNat = 48 + d :=
  toNat_ofNat_of_lt _ (by omega)

theorem takeDigits_of_endsValue (rest : List Char) (h : EndsValue rest) :
    takeDigits rest = ([], rest) := by
  obtain ⟨c, r, rfl, hc | hc⟩ := h <;> subst hc <;> simp [takeDigits]

theorem takeDigits_point (rest : List Char) : takeDigits ('.' :: rest) = ([], '.' :: rest) := by
  simp [takeDigits]

theorem takeDigits_digits (ds : List Nat) (hds : ∀ d ∈ ds, d < 10) (rest : List Char)
    (hrest : takeDigits rest = ([], rest)) :
    takeDigits (ds.map digitChar ++ rest) = (ds, rest) := by
  induction ds with
  | nil => simpa using hrest
  | cons d ds ih =>
    have hd : d < 10 := hds d (by simp)
    have ih' := ih (fun x hx => hds x (by simp [hx]))
    simp only [List.map_cons, List.cons_append, takeDigits, digitChar_toNat d hd]
    rw [if_pos (by omega)]
    simp only [List.append_eq, ih']
    simp

theorem wholeOfDigits_append (ds : List Nat) (d : Nat) :
    wholeOfDigits (ds ++ [d]) = wholeOfDigits ds * 10 + d := by
  simp [wholeOfDigits, List.foldl_append]

theorem wholeOfDigits_reverse_digits (n : Nat) :
    wholeOfDigits (Nat.digits 10 n).reverse = n := by
  induction n using Nat.strong_induction_on with
  | _ n ih =>
    by_cases hn : n = 0
    · subst hn
      simp [wholeOfDigits]
    · have hpos : 0 < n := Nat.pos_of_ne_zero hn
      rw [Nat.digits_def' (by decide) hpos, List.reverse_cons, wholeOfDigits_append,
        ih (n / 10) (Nat.div_lt_self hpos (by decide))]
      omega

theorem digits_lt_ten (n d : Nat) (h : d ∈ (Nat.digits 10 n).reverse) : d < 10 :=
  Nat.digits_lt_base (by decide) (List.mem_reverse.mp h)

theorem head_reverse_digits_ne_zero (n : Nat) (hn : n ≠ 0) :
    (Nat.digits 10 n).reverse.head? ≠ some 0 := by
  have hne : Nat.digits 10 n ≠ [] := Nat.digits_ne_nil_iff_ne_zero.mpr hn
  have hl := Nat.getLast_digit_ne_zero 10 hn
  rw [List.head?_reverse, List.getLast?_eq_getLast _ hne]
  intro h
  exact hl (Option.some.inj h)

theorem reverse_digits_ne_nil (n : Nat) (hn : n ≠ 0) : (Nat.digits 10 n).reverse ≠ [] := by
  simpa using Nat.digits_ne_nil_iff_ne_zero.mpr hn

/-- The digits that `printWhole` writes: they are digits, they stand for the number,
there is at least one, and the first is zero only for the number zero. -/
theorem printWhole_spec (n : Nat) :
    ∃ ds : List Nat, printWhole n = ds.map digitChar ∧ (∀ d ∈ ds, d < 10) ∧
      wholeOfDigits ds = n ∧ ds ≠ [] ∧ ¬ (1 < ds.length ∧ ds.head? = some 0) := by
  by_cases hn : n = 0
  · subst hn
    exact ⟨[0], by simp [printWhole], by simp, by simp [wholeOfDigits], by simp, by simp⟩
  · refine ⟨(Nat.digits 10 n).reverse, by simp [printWhole, hn], digits_lt_ten n,
      wholeOfDigits_reverse_digits n, reverse_digits_ne_nil n hn, ?_⟩
    intro h
    exact head_reverse_digits_ne_zero n hn h.2

theorem map_ofNat_val (fs : List (Fin 10)) :
    (fs.map (fun d => d.val)).map (fun d => (Fin.ofNat d : Fin 10)) = fs := by
  induction fs with
  | nil => rfl
  | cons f fs ih =>
    simp only [List.map_cons, ih, List.cons.injEq, and_true]
    exact Fin.ext (Nat.mod_eq_of_lt f.isLt)

theorem takeDigits_fraction (fs : List (Fin 10)) (rest : List Char) (hrest : EndsValue rest) :
    takeDigits (fs.map (fun d => digitChar d.val) ++ rest) = (fs.map (fun d => d.val), rest) := by
  have h := takeDigits_digits (fs.map (fun d => d.val))
    (by intro d hd; obtain ⟨f, _, rfl⟩ := List.mem_map.mp hd; exact f.isLt) rest
    (takeDigits_of_endsValue rest hrest)
  simpa [List.map_map] using h

/-- Reading the text of a number gives the number back, when a comma or a closing
brace follows. -/
theorem parseUnsigned_print (neg : Bool) (w : Nat) (fs : List (Fin 10)) (rest : List Char)
    (hrest : EndsValue rest) :
    parseUnsigned neg
        (printWhole w ++ (if fs = [] then [] else '.' :: fs.map (fun d => digitChar d.val)) ++ rest)
      = some ({ negative := neg, whole := w, fraction := fs }, rest) := by
  obtain ⟨ds, hp, hlt, hval, hne, hlead⟩ := printWhole_spec w
  have hnil := takeDigits_of_endsValue rest hrest
  have h2 := takeDigits_fraction fs rest hrest
  obtain ⟨c, r, hcr, hc⟩ := hrest
  have hce : ¬ (c = 'e' ∨ c = 'E') := by rcases hc with rfl | rfl <;> decide
  have hcp : ¬ c = '.' := by rcases hc with rfl | rfl <;> decide
  by_cases hfs : fs = []
  · subst hfs
    have h1 : takeDigits (printWhole w ++ rest) = (ds, rest) := by
      rw [hp]
      exact takeDigits_digits ds hlt rest hnil
    simp only [if_true, List.append_nil]
    unfold parseUnsigned
    rw [h1]
    simp only [hne, if_false, hlead, hval]
    rw [hcr]
    simp only [if_neg hcp, if_neg hce]
  · have h1 : takeDigits (printWhole w ++ '.' :: (fs.map (fun d => digitChar d.val) ++ rest))
        = (ds, '.' :: (fs.map (fun d => digitChar d.val) ++ rest)) := by
      rw [hp]
      exact takeDigits_digits ds hlt _ (takeDigits_point _)
    have hfs' : fs.map (fun d => d.val) ≠ [] := by simpa using hfs
    simp only [if_neg hfs, List.append_assoc, List.cons_append]
    unfold parseUnsigned
    rw [h1]
    simp only [hne, if_false, hlead, hval, if_true, h2, hfs', map_ofNat_val]
    rw [hcr]
    simp only [if_neg hce]

theorem printWhole_head (w : Nat) : ∃ c r, printWhole w = c :: r ∧ c ≠ '-' := by
  obtain ⟨ds, hp, hlt, -, hne, -⟩ := printWhole_spec w
  cases ds with
  | nil => exact absurd rfl hne
  | cons d ds =>
    refine ⟨digitChar d, ds.map digitChar, by simpa using hp, ?_⟩
    intro h
    have h1 := digitChar_toNat d (hlt d (by simp))
    rw [h] at h1
    have h2 : ('-' : Char).toNat = 45 := by decide
    omega

theorem parseNumber_print (n : Number) (rest : List Char) (hrest : EndsValue rest) :
    parseNumber (printNumber n ++ rest) = some (n, rest) := by
  obtain ⟨neg, w, fs⟩ := n
  have h := parseUnsigned_print neg w fs rest hrest
  cases neg with
  | true =>
    simp only [printNumber, if_true, List.cons_append, List.nil_append, parseNumber]
    simpa using h
  | false =>
    obtain ⟨c, r, hcr, hc⟩ := printWhole_head w
    simp only [printNumber, Bool.false_eq_true, if_false, List.nil_append] at h ⊢
    rw [hcr] at h ⊢
    simp only [List.cons_append, parseNumber, if_neg hc]
    simpa using h

/-! ## Theorems: JSON strings -/

theorem hexValue_hexDigit (k : Nat) (hk : k < 16) : hexValue (hexDigit k) = some k := by
  have h : ∀ j : Fin 16, hexValue (hexDigit j.val) = some j.val := by decide
  exact h ⟨k, hk⟩

theorem parseHex4_hex4 (n : Nat) (hn : n < 65536) (rest : List Char) :
    parseHex4 (hex4 n ++ rest) = some (n, rest) := by
  simp only [hex4, List.cons_append, List.nil_append, parseHex4,
    hexValue_hexDigit _ (Nat.mod_lt _ (by decide : 0 < 16))]
  congr 2
  omega

theorem toNat_lt_of_needsUnicodeEscape (c : Char) (h : needsUnicodeEscape c = true) :
    c.toNat < 0xD800 := by
  simp only [needsUnicodeEscape, Bool.or_eq_true, decide_eq_true_eq] at h
  rcases h with ((((h | h) | h) | h) | h) | h
  · omega
  · subst h; decide
  · subst h; decide
  · subst h; decide
  · omega
  · omega

theorem unescape_unicode (c : Char) (h : needsUnicodeEscape c = true) (tail : List Char) :
    unescape ('u' :: (hex4 c.toNat ++ tail)) = some (c, tail) := by
  have hlt := toNat_lt_of_needsUnicodeEscape c h
  have hu : ¬ ('u' = quoteChar) := by decide
  have hb : ¬ ('u' = backslash) := by decide
  have e1 : ¬ ('u' = '/') := by decide
  have e2 : ¬ ('u' = 'b') := by decide
  have e3 : ¬ ('u' = 'f') := by decide
  have e4 : ¬ ('u' = 'n') := by decide
  have e5 : ¬ ('u' = 'r') := by decide
  have e6 : ¬ ('u' = 't') := by decide
  have s1 : ¬ (55296 ≤ c.toNat ∧ c.toNat < 56320) := by omega
  have s2 : ¬ (56320 ≤ c.toNat ∧ c.toNat < 57344) := by omega
  rw [unescape]
  simp only [if_neg hu, if_neg hb, if_neg e1, if_neg e2, if_neg e3, if_neg e4, if_neg e5,
    if_neg e6, if_true, parseHex4_hex4 c.toNat (by omega) tail, if_neg s1, if_neg s2,
    Char.ofNat_toNat]

theorem unescape_quoteChar (tail : List Char) :
    unescape (quoteChar :: tail) = some (quoteChar, tail) := by
  simp [unescape]

theorem unescape_backslash (tail : List Char) :
    unescape (backslash :: tail) = some (backslash, tail) := by
  have h : ¬ (backslash = quoteChar) := by decide
  simp [unescape, h]

theorem unescape_n (tail : List Char) : unescape ('n' :: tail) = some ('\n', tail) := by
  have h1 : ¬ ('n' = quoteChar) := by decide
  have h2 : ¬ ('n' = backslash) := by decide
  simp [unescape, h1, h2]

theorem unescape_r (tail : List Char) : unescape ('r' :: tail) = some ('\r', tail) := by
  have h1 : ¬ ('r' = quoteChar) := by decide
  have h2 : ¬ ('r' = backslash) := by decide
  simp [unescape, h1, h2]

theorem unescape_t (tail : List Char) : unescape ('t' :: tail) = some ('\t', tail) := by
  have h1 : ¬ ('t' = quoteChar) := by decide
  have h2 : ¬ ('t' = backslash) := by decide
  simp [unescape, h1, h2]

theorem toNat_ge_of_not_needsUnicodeEscape (c : Char) (h : needsUnicodeEscape c = false) :
    ¬ c.toNat < 0x20 := by
  intro hlt
  have : needsUnicodeEscape c = true := by
    simp only [needsUnicodeEscape, Bool.or_eq_true, decide_eq_true_eq]
    exact Or.inl (Or.inl (Or.inl (Or.inl (Or.inl hlt))))
  rw [this] at h
  exact absurd h (by simp)

theorem parseChars_escaped (fuel : Nat) (cs : List Char) :
    parseChars (fuel + 1) (backslash :: cs) =
      match unescape cs with
      | none => none
      | some (d, r) =>
        match parseChars fuel r with
        | none => none
        | some (s, r2) => some (d :: s, r2) := by
  have h : ¬ (backslash = quoteChar) := by decide
  simp only [parseChars, if_neg h, if_true]

theorem parseChars_plain (fuel : Nat) (c : Char) (cs : List Char) (h1 : ¬ c = quoteChar)
    (h2 : ¬ c = backslash) (h3 : ¬ c.toNat < 0x20) :
    parseChars (fuel + 1) (c :: cs) =
      match parseChars fuel cs with
      | none => none
      | some (s, r) => some (c :: s, r) := by
  simp only [parseChars, if_neg h1, if_neg h2, if_neg h3]

/-- What `escapeChar` writes: the character itself, if it is an ordinary one, or a
backslash and an escape that `unescape` reads back. -/
theorem escapeChar_spec (c : Char) :
    (escapeChar c = [c] ∧ ¬ c = quoteChar ∧ ¬ c = backslash ∧ ¬ c.toNat < 0x20) ∨
    ∃ e, escapeChar c = backslash :: e ∧ ∀ tail, unescape (e ++ tail) = some (c, tail) := by
  unfold escapeChar
  by_cases h1 : c = quoteChar
  · exact Or.inr ⟨[quoteChar], by rw [if_pos h1], fun tail => by
      subst h1; exact unescape_quoteChar tail⟩
  · by_cases h2 : c = backslash
    · exact Or.inr ⟨[backslash], by rw [if_neg h1, if_pos h2], fun tail => by
        subst h2; exact unescape_backslash tail⟩
    · by_cases h3 : c = '\n'
      · exact Or.inr ⟨['n'], by rw [if_neg h1, if_neg h2, if_pos h3], fun tail => by
          subst h3; exact unescape_n tail⟩
      · by_cases h4 : c = '\r'
        · exact Or.inr ⟨['r'], by rw [if_neg h1, if_neg h2, if_neg h3, if_pos h4], fun tail => by
            subst h4; exact unescape_r tail⟩
        · by_cases h5 : c = '\t'
          · exact Or.inr ⟨['t'],
              by rw [if_neg h1, if_neg h2, if_neg h3, if_neg h4, if_pos h5], fun tail => by
                subst h5; exact unescape_t tail⟩
          · cases h6 : needsUnicodeEscape c with
            | true =>
              exact Or.inr ⟨'u' :: hex4 c.toNat,
                by rw [if_neg h1, if_neg h2, if_neg h3, if_neg h4, if_neg h5, if_pos rfl],
                fun tail => unescape_unicode c h6 tail⟩
            | false =>
              refine Or.inl ⟨?_, h1, h2, toNat_ge_of_not_needsUnicodeEscape c h6⟩
              rw [if_neg h1, if_neg h2, if_neg h3, if_neg h4, if_neg h5, if_neg (by simp)]

/-- Reading one written character of a string gives the character back. -/
theorem parseChars_escapeChar (c : Char) (fuel : Nat) (tail : List Char) :
    parseChars (fuel + 1) (escapeChar c ++ tail) =
      match parseChars fuel tail with
      | none => none
      | some (s, r) => some (c :: s, r) := by
  rcases escapeChar_spec c with ⟨he, h1, h2, h3⟩ | ⟨e, he, hu⟩
  · rw [he]
    exact parseChars_plain fuel c tail h1 h2 h3
  · rw [he, List.cons_append, parseChars_escaped, hu tail]

/-- Reading the written inside of a string, up to the closing quote, gives the
string back. -/
theorem parseChars_escapeAll (s : List Char) (rest : List Char) (fuel : Nat)
    (hfuel : s.length + 1 ≤ fuel) :
    parseChars fuel (escapeAll s ++ quoteChar :: rest) = some (s, rest) := by
  induction s generalizing fuel with
  | nil =>
    obtain ⟨n, rfl⟩ : ∃ n, fuel = n + 1 := ⟨fuel - 1, by simp at hfuel; omega⟩
    simp [escapeAll, parseChars]
  | cons c cs ih =>
    obtain ⟨n, rfl⟩ : ∃ n, fuel = n + 1 := ⟨fuel - 1, by simp at hfuel; omega⟩
    simp only [escapeAll, List.append_assoc, parseChars_escapeChar,
      ih n (by simpa using hfuel)]

theorem length_le_escapeAll (s : List Char) : s.length ≤ (escapeAll s).length := by
  induction s with
  | nil => simp [escapeAll]
  | cons c cs ih =>
    have hc : 0 < (escapeChar c).length := by
      unfold escapeChar
      split_ifs <;> simp
    simp only [escapeAll, List.length_cons, List.length_append]
    omega

/-- Reading a written string gives the string back. -/
theorem parseChars_quoteString (s : String) (rest : List Char) :
    ∃ body, quoteString s ++ rest = quoteChar :: body ∧
      parseChars (body.length + 1) body = some (s.toList, rest) := by
  refine ⟨escapeAll s.toList ++ quoteChar :: rest, by simp [quoteString], ?_⟩
  apply parseChars_escapeAll
  have := length_le_escapeAll s.toList
  simp only [List.length_append, List.length_cons]
  omega

/-! ## Theorems: JSON values and objects -/

theorem mk_toList (s : String) : String.mk s.toList = s := by
  cases s
  rfl

theorem dropWord_append (w rest : List Char) : dropWord w (w ++ rest) = some rest := by
  induction w with
  | nil => rfl
  | cons c cs ih => simp [dropWord, ih]

/-- The first character of a written number is a minus sign or a digit. -/
theorem printNumber_head (n : Number) :
    ∃ c r, printNumber n = c :: r ∧ (c.toNat = 45 ∨ (48 ≤ c.toNat ∧ c.toNat ≤ 57)) := by
  obtain ⟨neg, w, fs⟩ := n
  cases neg with
  | true =>
    exact ⟨'-', printWhole w ++ (if fs = [] then [] else '.' :: fs.map (fun d => digitChar d.val)),
      by simp [printNumber], Or.inl (by decide)⟩
  | false =>
    obtain ⟨ds, hp, hlt, -, hne, -⟩ := printWhole_spec w
    cases ds with
    | nil => exact absurd rfl hne
    | cons d ds =>
      refine ⟨digitChar d,
        ds.map digitChar ++ (if fs = [] then [] else '.' :: fs.map (fun d => digitChar d.val)),
        by simp [printNumber, hp], Or.inr ?_⟩
      rw [digitChar_toNat d (hlt d (by simp))]
      have := hlt d (by simp)
      omega

theorem ne_of_toNat_ne (c d : Char) (h : c.toNat ≠ d.toNat) : ¬ c = d := by
  rintro rfl
  exact h rfl

/-- Reading a written value gives the value back, when a comma or a closing brace
follows. -/
theorem parseValue_printValue (v : JValue) (rest : List Char) (hrest : EndsValue rest) :
    parseValue (printValue v ++ rest) = some (v, rest) := by
  cases v with
  | null =>
    have h := dropWord_append "null".toList rest
    have hq : ¬ ('n' = quoteChar) := by decide
    simp only [printValue, String.toList, List.cons_append, List.nil_append, parseValue,
      if_neg hq, if_true] at h ⊢
    simp [h]
  | bool b =>
    cases b with
    | true =>
      have h := dropWord_append "true".toList rest
      have hq : ¬ ('t' = quoteChar) := by decide
      have hn : ¬ ('t' = 'n') := by decide
      simp only [printValue, String.toList, List.cons_append, List.nil_append, parseValue,
        if_neg hq, if_neg hn, if_true] at h ⊢
      simp [h]
    | false =>
      have h := dropWord_append "false".toList rest
      have hq : ¬ ('f' = quoteChar) := by decide
      have hn : ¬ ('f' = 'n') := by decide
      have ht : ¬ ('f' = 't') := by decide
      simp only [printValue, String.toList, List.cons_append, List.nil_append, parseValue,
        if_neg hq, if_neg hn, if_neg ht, if_true] at h ⊢
      simp [h]
  | number n =>
    obtain ⟨c, r, hc, hhead⟩ := printNumber_head n
    have h := parseNumber_print n rest hrest
    have hq : ¬ c = quoteChar := ne_of_toNat_ne _ _ (by
      have : quoteChar.toNat = 34 := by decide
      omega)
    have hn : ¬ c = 'n' := ne_of_toNat_ne _ _ (by
      have : ('n' : Char).toNat = 110 := by decide
      omega)
    have ht : ¬ c = 't' := ne_of_toNat_ne _ _ (by
      have : ('t' : Char).toNat = 116 := by decide
      omega)
    have hf : ¬ c = 'f' := ne_of_toNat_ne _ _ (by
      have : ('f' : Char).toNat = 102 := by decide
      omega)
    simp only [printValue]
    rw [hc] at h ⊢
    simp only [List.cons_append, parseValue, if_neg hq, if_neg hn, if_neg ht, if_neg hf] at h ⊢
    rw [h]
  | string s =>
    obtain ⟨body, hb, hp⟩ := parseChars_quoteString s rest
    simp only [printValue, hb, parseValue, if_true, hp, mk_toList]

theorem skipSpace_of_not_space (c : Char) (r : List Char)
    (h : ¬ (c = ' ' ∨ c = '\t' ∨ c = '\n' ∨ c = '\r')) : skipSpace (c :: r) = c :: r := by
  simp only [skipSpace, if_neg h]

theorem not_space_of_toNat (c : Char) (h : 33 ≤ c.toNat) :
    ¬ (c = ' ' ∨ c = '\t' ∨ c = '\n' ∨ c = '\r') := by
  rintro (rfl | rfl | rfl | rfl)
  · exact absurd h (by decide)
  · exact absurd h (by decide)
  · exact absurd h (by decide)
  · exact absurd h (by decide)

/-- The first character of a written value is not white space. -/
theorem printValue_head (v : JValue) :
    ∃ c r, printValue v = c :: r ∧ ¬ (c = ' ' ∨ c = '\t' ∨ c = '\n' ∨ c = '\r') := by
  cases v with
  | null => exact ⟨'n', _, rfl, by decide⟩
  | bool b => cases b
              · exact ⟨'f', _, rfl, by decide⟩
              · exact ⟨'t', _, rfl, by decide⟩
  | number n =>
    obtain ⟨c, r, hc, hhead⟩ := printNumber_head n
    exact ⟨c, r, hc, not_space_of_toNat c (by omega)⟩
  | string s => exact ⟨quoteChar, _, rfl, by decide⟩

theorem skipSpace_printValue (v : JValue) (rest : List Char) :
    skipSpace (printValue v ++ rest) = printValue v ++ rest := by
  obtain ⟨c, r, hc, hs⟩ := printValue_head v
  rw [hc, List.cons_append, skipSpace_of_not_space c _ hs]

theorem skipSpace_of_endsValue (rest : List Char) (h : EndsValue rest) :
    skipSpace rest = rest := by
  obtain ⟨c, r, rfl, hc | hc⟩ := h <;> subst hc <;>
    exact skipSpace_of_not_space _ _ (by decide)

/-- Reading one written member: the name, the colon and the value are read, and
what follows the value is left. -/
theorem parseMembers_step (fuel : Nat) (m : String × JValue) (rest : List Char)
    (hrest : EndsValue rest) :
    parseMembers (fuel + 1) (printMember m ++ rest) =
      match rest with
      | [] => none
      | sep :: r4 =>
        if sep = ',' then
          match parseMembers fuel r4 with
          | none => none
          | some (ms, r5) => some (m :: ms, r5)
        else if sep = '}' then some ([m], r4)
        else none := by
  obtain ⟨k, v⟩ := m
  obtain ⟨body, hb, hp⟩ := parseChars_quoteString k (':' :: (printValue v ++ rest))
  have hq : ¬ (quoteChar = ' ' ∨ quoteChar = '\t' ∨ quoteChar = '\n' ∨ quoteChar = '\r') := by
    decide
  have hcolon : skipSpace (':' :: (printValue v ++ rest)) = ':' :: (printValue v ++ rest) :=
    skipSpace_of_not_space _ _ (by decide)
  have htext : printMember (k, v) ++ rest = quoteChar :: body := by
    rw [← hb]
    simp [printMember]
  rw [htext, parseMembers]
  simp only [skipSpace_of_not_space quoteChar body hq, if_true, hp, hcolon,
    skipSpace_printValue, parseValue_printValue v rest hrest, skipSpace_of_endsValue rest hrest,
    mk_toList]
  cases rest <;> rfl

theorem endsValue_comma (r : List Char) : EndsValue (',' :: r) := ⟨',', r, rfl, Or.inl rfl⟩

theorem endsValue_brace (r : List Char) : EndsValue ('}' :: r) := ⟨'}', r, rfl, Or.inr rfl⟩

/-- Reading the written members of an object, up to its closing brace, gives the
members back. -/
theorem parseMembers_printMembers (ms : List (String × JValue)) (hms : ms ≠ [])
    (rest : List Char) (fuel : Nat) (hfuel : ms.length ≤ fuel) :
    parseMembers fuel (printMembers ms ++ '}' :: rest) = some (ms, rest) := by
  induction ms generalizing fuel with
  | nil => exact absurd rfl hms
  | cons m ms ih =>
    obtain ⟨n, rfl⟩ : ∃ n, fuel = n + 1 := ⟨fuel - 1, by simp at hfuel; omega⟩
    cases ms with
    | nil =>
      simp only [printMembers]
      rw [parseMembers_step n m _ (endsValue_brace rest)]
      simp
    | cons m2 ms2 =>
      have h := ih (by simp) n (by simpa using hfuel)
      simp only [printMembers, List.append_assoc, List.cons_append] at h ⊢
      rw [parseMembers_step n m _ (endsValue_comma _)]
      simp only [if_true, h]

theorem printMember_length_pos (m : String × JValue) : 0 < (printMember m).length := by
  simp [printMember, quoteString]

theorem length_le_printMembers (ms : List (String × JValue)) :
    ms.length ≤ (printMembers ms).length := by
  induction ms with
  | nil => simp
  | cons m ms ih =>
    have := printMember_length_pos m
    cases ms with
    | nil => simpa [printMembers] using this
    | cons m2 ms2 =>
      simp only [printMembers, List.length_cons, List.length_append] at ih ⊢
      omega

theorem printMembers_head (ms : List (String × JValue)) (hms : ms ≠ []) :
    ∃ r, printMembers ms = quoteChar :: r := by
  cases ms with
  | nil => exact absurd rfl hms
  | cons m ms =>
    cases ms with
    | nil =>
      exact ⟨escapeAll m.1.toList ++ quoteChar :: ':' :: printValue m.2,
        by simp [printMembers, printMember, quoteString]⟩
    | cons m2 ms2 =>
      exact ⟨escapeAll m.1.toList ++
          quoteChar :: ':' :: (printValue m.2 ++ ',' :: printMembers (m2 :: ms2)),
        by simp [printMembers, printMember, quoteString]⟩

/-- Reading a written object, after its opening brace, gives its members back. -/
theorem parseObject_printMembers (ms : List (String × JValue)) (rest : List Char) :
    parseObject (printMembers ms ++ '}' :: rest) = some (ms, rest) := by
  by_cases hms : ms = []
  · subst hms
    simp [printMembers, parseObject, skipSpace]
  · obtain ⟨r, hr⟩ := printMembers_head ms hms
    have hq : ¬ (quoteChar = ' ' ∨ quoteChar = '\t' ∨ quoteChar = '\n' ∨ quoteChar = '\r') := by
      decide
    have hb : ¬ (quoteChar = '}') := by decide
    have hp := parseMembers_printMembers ms hms rest ((printMembers ms ++ '}' :: rest).length + 1)
      (by have := length_le_printMembers ms; simp only [List.length_append]; omega)
    unfold parseObject
    rw [hr] at hp ⊢
    simp only [List.cons_append, skipSpace_of_not_space quoteChar _ hq, if_neg hb] at hp ⊢
    exact hp

/-! ## Theorems: the structured encoding of the credential -/

/-- Decoding the members of a credential gives the credential back. -/
theorem fromMembers_toMembers (c : SessionCredential) : fromMembers (toMembers c) = c := by
  obtain ⟨name, value, domain, path, expires, httpOnly, secure, sameSite⟩ := c
  cases sameSite <;> rfl

theorem any_isMismatch_toMembers (c : SessionCredential) :
    (toMembers c).any isMismatch = false := by
  obtain ⟨name, value, domain, path, expires, httpOnly, secure, sameSite⟩ := c
  cases sameSite <;> rfl

theorem skipSpace_nil : skipSpace [] = [] := rfl

/-- The round trip of the structured encoding: `jsonUnmarshal` reads back every
credential that `jsonMarshal` wrote, without an error. -/
theorem jsonUnmarshal_jsonMarshal (c : SessionCredential) :
    jsonUnmarshal (jsonMarshal c).1 = (some c, none) := by
  have hfm := fromMembers_toMembers c
  have hmm := any_isMismatch_toMembers c
  have hdec : utf8Decode (utf8Encode (printObject (toMembers c))).length
      (utf8Encode (printObject (toMembers c))) = printObject (toMembers c) :=
    utf8Decode_utf8Encode _ _ (length_le_utf8Encode _)
  have hb : skipSpace (printObject (toMembers c)) =
      '{' :: (printMembers (toMembers c) ++ '}' :: []) :=
    skipSpace_of_not_space _ _ (by decide)
  have hp := parseObject_printMembers (toMembers c) []
  unfold jsonUnmarshal jsonMarshal
  simp only [hdec, hb, if_true, hp, skipSpace_nil, hfm, hmm, Bool.false_eq_true, if_false]

/-! ## Theorems: the credential file -/

theorem bind_apply {P : Proto} {α β : Type} (m : Prog P α) (f : α → Prog P β) (st : State P) :
    (m >>= f) st = Prog.bind m f st := rfl

theorem pure_apply {P : Proto} {α : Type} (a : α) (st : State P) :
    (pure a : Prog P α) st = (.ok a, st) := rfl

/-- What `loadCookies` does, in one formula: the message, the warning of a failed
home lookup, and the cookie that the file decodes to, if any, given to the browser. -/
theorem loadCookies_run {P : Proto} (W : World P) (st : State P) :
    loadCookies W st =
      match (P.Unmarshal
          (DecodeString ((st.files (credentialFile (UserHomeDir W).1)).getD [])).1).1 with
      | some c =>
        (match W.setCookies with
          | some e => .goPanic e
          | none => .ok (),
         { st with trace := st.trace ++ [.message "loading cookies"] ++ homeWarning W ++
            [.setCookies c] })
      | none =>
        (.ok (), { st with trace := st.trace ++ [.message "loading cookies"] ++ homeWarning W }) := by
  cases hh : W.home <;>
  cases hu : (P.Unmarshal (DecodeString ((st.files (credentialFile (UserHomeDir W).1)).getD [])).1).1 <;>
  cases hs : W.setCookies <;>
  simp_all [loadCookies, bind_apply, pure_apply, Prog.bind, emit, must, errormsg, ReadFile,
    UserHomeDir, homeWarning, goPanic]


/-- What the loop of `saveCookies` does: it acts on the first cookie of the jar that
has the session name, and on no other. -/
theorem saveCookiesLoop_run {P : Proto} (W : World P) (dirname : String)
    (jar : List P.NetworkCookie) (st : State P) :
    saveCookiesLoop W dirname jar st =
      match jar.find? (fun c => decide (P.Name c = sessionCookieName)) with
      | none => (.ok (), st)
      | some c =>
        match W.writeFile with
        | some failure =>
          (.ok (),
           { files :=
               (match failure.written with
                | none => st.files
                | some k => (fun n =>
                    if n = credentialFile dirname
                    then some ((EncodeToString (P.Marshal c).1).take k) else st.files n)),
             trace := st.trace ++
               [.message ("Warn: " ++ colored W.yellow "Failed to save x-amz-sso_authn cookie")] })
        | none =>
          (.ok (), { st with files := (fun n =>
            if n = credentialFile dirname then some (EncodeToString (P.Marshal c).1)
            else st.files n) }) := by
  induction jar with
  | nil => rfl
  | cons c cs ih =>
    by_cases hc : P.Name c = sessionCookieName
    · cases hw : W.writeFile with
      | none =>
        simp [saveCookiesLoop, hc, List.find?, bind_apply, pure_apply, Prog.bind, WriteFile, hw]
      | some failure =>
        cases hk : failure.written <;>
        simp [saveCookiesLoop, hc, List.find?, bind_apply, pure_apply, Prog.bind, WriteFile, hw,
          hk, errormsg, emit]
    · simp [saveCookiesLoop, hc, List.find?, ih]

/-- The function `saveCookies` when the browser hands over the jar. -/
theorem saveCookies_run {P : Proto} (W : World P) (jar : List P.NetworkCookie)
    (hjar : W.getCookies = .ok jar) (st : State P) :
    saveCookies W st =
      saveCookiesLoop W (UserHomeDir W).1 jar
        { st with trace := st.trace ++ homeWarning W ++ [.getCookies] } := by
  cases hh : W.home <;>
  simp [saveCookies, bind_apply, pure_apply, Prog.bind, emit, errormsg, UserHomeDir,
    homeWarning, MustGetCookies, hjar, hh]


/-! ## Theorems: the trace only grows -/

theorem traceGrows_pure {P : Proto} {α : Type} (a : α) : TraceGrows (pure a : Prog P α) :=
  fun _ => ⟨[], by simp [pure_apply]⟩

theorem traceGrows_emit {P : Proto} (e : Event P) : TraceGrows (emit e) :=
  fun _ => ⟨[e], rfl⟩

theorem traceGrows_osExit {P : Proto} {α : Type} (code : Nat) :
    TraceGrows (osExit code : Prog P α) :=
  fun _ => ⟨[], by simp [osExit]⟩

theorem traceGrows_goPanic {P : Proto} {α : Type} (v : GoError) :
    TraceGrows (goPanic v : Prog P α) :=
  fun _ => ⟨[], by simp [goPanic]⟩

theorem traceGrows_stillRunning {P : Proto} {α : Type} :
    TraceGrows (stillRunning : Prog P α) :=
  fun _ => ⟨[], by simp [stillRunning]⟩

theorem traceGrows_bind {P : Proto} {α β : Type} (m : Prog P α) (f : α → Prog P β)
    (hm : TraceGrows m) (hf : ∀ a, TraceGrows (f a)) : TraceGrows (m >>= f) := by
  intro st
  obtain ⟨added, h⟩ := hm st
  rw [bind_apply]
  unfold Prog.bind
  rcases hr : m st with ⟨o, st1⟩
  rw [hr] at h
  cases o with
  | ok a =>
    obtain ⟨added2, h2⟩ := hf a st1
    have h1 : st1.trace = st.trace ++ added := h
    exact ⟨added ++ added2, by simp only [h2, h1, List.append_assoc]⟩
  | exit code => exact ⟨added, h⟩
  | goPanic v => exact ⟨added, h⟩
  | running => exact ⟨added, h⟩

theorem traceGrows_must {P : Proto} (e : Event P) (answer : Option GoError) :
    TraceGrows (must e answer) := by
  unfold must
  refine traceGrows_bind _ _ (traceGrows_emit e) (fun _ => ?_)
  cases answer
  · exact traceGrows_pure ()
  · exact traceGrows_goPanic _

theorem traceGrows_Try {P : Proto} (W : World P) (fn : Prog P Unit) (h : TraceGrows fn) :
    TraceGrows (Try W fn) := by
  intro st
  obtain ⟨added, h⟩ := h st
  unfold Try
  rcases hr : fn st with ⟨o, st1⟩
  rw [hr] at h
  cases o <;> exact ⟨added, h⟩

theorem traceGrows_errormsg {P : Proto} (W : World P) (errorMsg : String) :
    TraceGrows (errormsg W errorMsg) :=
  traceGrows_emit _

theorem traceGrows_panic {P : Proto} {α : Type} (W : World P) (errorMsg : String) :
    TraceGrows (panic W errorMsg : Prog P α) := by
  unfold panic
  exact traceGrows_bind _ _ (traceGrows_emit _) (fun _ =>
    traceGrows_bind _ _ (traceGrows_emit _) (fun _ => traceGrows_osExit 1))

theorem traceGrows_manageErrors {P : Proto} (W : World P) (err : Option GoError) :
    TraceGrows (manageErrors W err) := by
  unfold manageErrors
  split
  · exact traceGrows_panic W _
  · cases err with
    | none => exact traceGrows_pure ()
    | some e =>
      dsimp only
      split
      · exact traceGrows_bind _ _ (traceGrows_osExit 0) (fun _ => traceGrows_panic W _)
      · exact traceGrows_bind _ _ (traceGrows_pure ()) (fun _ => traceGrows_panic W _)

theorem traceGrows_saveCookies {P : Proto} (W : World P) : TraceGrows (saveCookies W) := by
  intro st
  cases hj : W.getCookies with
  | error e =>
    cases hh : W.home <;>
    simp [saveCookies, bind_apply, pure_apply, Prog.bind, emit, errormsg, UserHomeDir,
      MustGetCookies, hj, hh, goPanic]
  | ok jar =>
    rw [saveCookies_run W jar hj, saveCookiesLoop_run]
    cases jar.find? (fun c => decide (P.Name c = sessionCookieName)) with
    | none => exact ⟨homeWarning W ++ [.getCookies], by simp⟩
    | some c =>
      cases W.writeFile with
      | none => exact ⟨homeWarning W ++ [.getCookies], by simp⟩
      | some e =>
        exact ⟨homeWarning W ++ [.getCookies] ++
          [.message ("Warn: " ++ colored W.yellow "Failed to save x-amz-sso_authn cookie")],
          by simp⟩

theorem traceGrows_pollAllow {P : Proto} (W : World P) (fuel i : Nat) :
    TraceGrows (pollAllow W fuel i) := by
  induction fuel generalizing i with
  | zero => exact traceGrows_stillRunning
  | succ n ih =>
    unfold pollAllow
    refine traceGrows_bind _ _ (traceGrows_emit _) (fun _ => ?_)
    split
    · exact traceGrows_pure true
    · exact traceGrows_bind _ _ (traceGrows_emit _) (fun _ => ih (i + 1))


theorem beginsWith_nil {P : Proto} {α : Type} (m : Prog P α) (h : TraceGrows m) :
    BeginsWith [] m := by
  intro st
  obtain ⟨added, h⟩ := h st
  exact ⟨added, by simp [h]⟩

theorem beginsWith_emit_bind {P : Proto} {β : Type} (e : Event P) (first : List (Event P))
    (f : Unit → Prog P β) (h : BeginsWith first (f ())) :
    BeginsWith (e :: first) (emit e >>= f) := by
  intro st
  obtain ⟨later, h⟩ := h { st with trace := st.trace ++ [e] }
  refine ⟨later, ?_⟩
  rw [bind_apply]
  simp only [Prog.bind, emit]
  rw [h]
  simp

theorem beginsWith_must_bind {P : Proto} {β : Type} (e : Event P) (answer : Option GoError)
    (f : Unit → Prog P β) (h : TraceGrows (f ())) : BeginsWith [e] (must e answer >>= f) := by
  intro st
  cases answer with
  | none =>
    obtain ⟨later, h⟩ := h { st with trace := st.trace ++ [e] }
    refine ⟨later, ?_⟩
    simp only [bind_apply, Prog.bind, must, emit, pure_apply]
    rw [h]
  | some err =>
    exact ⟨[], by simp [bind_apply, Prog.bind, must, emit, goPanic]⟩

theorem traceGrows_of_beginsWith {P : Proto} {α : Type} (first : List (Event P))
    (m : Prog P α) (h : BeginsWith first m) : TraceGrows m := by
  intro st
  obtain ⟨later, h⟩ := h st
  exact ⟨first ++ later, by simp [h]⟩

/-- The automation begins by announcing and opening the page of the URL. -/
theorem beginsWith_automation {P : Proto} (W : World P) (fuel : Nat) (url : String) :
    BeginsWith [.message "opening url", .page url] (automation W fuel url) := by
  unfold automation
  refine beginsWith_emit_bind _ _ _ (beginsWith_must_bind _ _ _ ?_)
  refine traceGrows_bind _ _ (traceGrows_emit _) (fun _ => ?_)
  refine traceGrows_bind _ _ (traceGrows_emit _) (fun _ => ?_)
  refine traceGrows_bind _ _ (traceGrows_must _ _) (fun _ => ?_)
  refine traceGrows_bind _ _ (traceGrows_must _ _) (fun _ => ?_)
  refine traceGrows_bind _ _ (traceGrows_must _ _) (fun _ => ?_)
  refine traceGrows_bind _ _ (traceGrows_emit _) (fun _ => ?_)
  refine traceGrows_bind _ _ (traceGrows_emit _) (fun _ => ?_)
  refine traceGrows_bind _ _ (traceGrows_pollAllow _ _ _) (fun allowButton => ?_)
  dsimp only
  split
  · refine traceGrows_bind _ _ (traceGrows_must _ _) (fun _ => ?_)
    exact traceGrows_bind _ _ (traceGrows_must _ _) (fun _ => traceGrows_saveCookies W)
  · exact traceGrows_bind _ _ (traceGrows_pure _) (fun _ => traceGrows_saveCookies W)

theorem beginsWith_Try {P : Proto} (W : World P) (first : List (Event P)) (fn : Prog P Unit)
    (h : BeginsWith first fn) : BeginsWith first (Try W fn) := by
  intro st
  obtain ⟨later, h⟩ := h st
  unfold Try
  rcases hr : fn st with ⟨o, st1⟩
  rw [hr] at h
  cases o <;> exact ⟨later, h⟩

theorem beginsWith_bind {P : Proto} {α β : Type} (first : List (Event P)) (m : Prog P α)
    (f : α → Prog P β) (hm : BeginsWith first m) (hf : ∀ a, TraceGrows (f a)) :
    BeginsWith first (m >>= f) := by
  intro st
  obtain ⟨later, h⟩ := hm st
  rw [bind_apply]
  unfold Prog.bind
  rcases hr : m st with ⟨o, st1⟩
  rw [hr] at h
  cases o with
  | ok a =>
    obtain ⟨added2, h2⟩ := hf a st1
    have h1 : st1.trace = st.trace ++ first ++ later := h
    exact ⟨later ++ added2, by simp only [h2, h1, List.append_assoc]⟩
  | exit code => exact ⟨later, h⟩
  | goPanic v => exact ⟨later, h⟩
  | running => exact ⟨later, h⟩

/-! ## Theorems: `ssoLogin` -/

/-- When the launch fails, `ssoLogin` ends at once in the panic of `MustLaunch`. -/
theorem ssoLogin_launch_error {P : Proto} (W : World P) (fuel : Nat) (url : String)
    (showBrowser : Bool) (st : State P) (e : GoError) (h : W.launch = .error e) :
    ssoLogin W fuel url showBrowser st =
      (.goPanic e, { st with trace := st.trace ++ [.launch (!showBrowser)] }) := by
  simp [ssoLogin, bind_apply, Prog.bind, MustLaunch, emit, h, goPanic]

/-- When the connection fails, `ssoLogin` ends in the panic of `MustConnect`. -/
theorem ssoLogin_connect_error {P : Proto} (W : World P) (fuel : Nat) (url : String)
    (showBrowser : Bool) (st : State P) (launchurl : String) (e : GoError)
    (h : W.launch = .ok launchurl) (hc : W.connect = some e) :
    ssoLogin W fuel url showBrowser st =
      (.goPanic e, { st with trace := st.trace ++
        [.launch (!showBrowser), .message (colored W.magenta "init headless-browser \n"),
         .pause, .connect launchurl] }) := by
  simp [ssoLogin, bind_apply, pure_apply, Prog.bind, MustLaunch, emit, h, hc, goPanic, must]

/-- When launch and connection succeed, `ssoLogin` goes on with `loadCookies`, the
automation and the handling of its error. -/
theorem ssoLogin_connected {P : Proto} (W : World P) (fuel : Nat) (url : String)
    (showBrowser : Bool) (st : State P) (launchurl : String)
    (h : W.launch = .ok launchurl) (hc : W.connect = none) :
    ssoLogin W fuel url showBrowser st =
      (loadCookies W >>= fun _ => Try W (automation W fuel url) >>= manageErrors W)
        { st with trace := st.trace ++
          [.launch (!showBrowser), .message (colored W.magenta "init headless-browser \n"),
           .pause, .connect launchurl] } := by
  simp [ssoLogin, bind_apply, pure_apply, Prog.bind, MustLaunch, emit, h, hc, must]


theorem toList_append (a b : String) : (a ++ b).toList = a.toList ++ b.toList := by
  cases a
  cases b
  rfl

/-- A text that `panic` is given occurs in the failure message that it sets. -/
theorem containsText_panic_message (wrap : String × String) (errorMsg : String) :
    containsText (colored wrap ("Fatal Panic and Exit. Error: " ++ errorMsg)) errorMsg := by
  refine ⟨(wrap.1 ++ "Fatal Panic and Exit. Error: ").toList, wrap.2.toList, ?_⟩
  simp only [colored, toList_append, List.append_assoc]

theorem containsText_trans (a b c : String) (hab : containsText a b) (hbc : containsText b c) :
    containsText a c :=
  List.IsInfix.trans hbc hab

theorem panic_run {P : Proto} {α : Type} (W : World P) (errorMsg : String) (st : State P) :
    (panic W errorMsg : Prog P α) st =
      (.exit 1, { st with trace := st.trace ++
        [.stopFailMessage (colored W.red ("Fatal Panic and Exit. Error: " ++ errorMsg)),
         .stopFail] }) := by
  simp [panic, bind_apply, Prog.bind, emit, osExit]


/-- When the file decodes to no cookie, `loadCookies` says that it loads the cookies,
warns if the home directory lookup failed, and does nothing else. -/
theorem loadCookies_of_nil {P : Proto} (W : World P) (st : State P)
    (hnil : (P.Unmarshal
      (DecodeString ((st.files (credentialFile (UserHomeDir W).1)).getD [])).1).1 = none) :
    loadCookies W st =
      (.ok (), { st with trace := st.trace ++ [.message "loading cookies"] ++ homeWarning W }) := by
  rw [loadCookies_run, hnil]

/-- The effects of `loadCookies` without a cookie: none installs a cookie, none
reports a failure. -/
theorem loadCookies_effects_harmless {P : Proto} (W : World P) :
    ∀ ev ∈ [Event.message "loading cookies"] ++ homeWarning W,
      ev.isSetCookies = false ∧ ev.isFailureReport = false := by
  intro ev hev
  cases hh : W.home <;> simp [homeWarning, hh] at hev <;>
    rcases hev with rfl | rfl <;> exact ⟨rfl, rfl⟩

/-- When `saveCookies` has written the file for the session cookie `c` of the jar,
and the structured encoding reads `c` back, the next `loadCookies` gives the browser
exactly `c`. -/
theorem loadCookies_after_saveCookies {P : Proto} (W : World P) (jar : List P.NetworkCookie)
    (st : State P) (c : P.NetworkCookie) (hjar : W.getCookies = .ok jar)
    (hfind : jar.find? (fun x => decide (P.Name x = sessionCookieName)) = some c)
    (hwrite : W.writeFile = none)
    (hjson : (P.Unmarshal (P.Marshal c).1).1 = some c) :
    (loadCookies W (saveCookies W st).2).2.trace =
      (saveCookies W st).2.trace ++ [.message "loading cookies"] ++ homeWarning W ++
        [.setCookies c] := by
  rw [saveCookies_run W jar hjar, saveCookiesLoop_run, hfind, hwrite, loadCookies_run]
  simp only [if_true, Option.getD_some, DecodeString_EncodeToString, hjson]

/-! ## The URL extractor: main results -/

/-- C1. For every stream of lines in which `l` is the first line that the pattern
accepts (every line of `before` is rejected), `getURLfromstdin` returns exactly `l`,
whole and unmodified: with fuel for `before.length + 1` iterations the loop ends with
`url = l`, having read the lines of `before` and `l` and nothing of `after`; with
less fuel it is still running, so the lines of `before` are read and ignored. -/
theorem getURLfromstdin_returns_first_match (before : List String) (l : String)
    (after : List String)
    (hbefore : ∀ x ∈ before, urlPattern.MatchString x = false)
    (hl : urlPattern.MatchString l = true) :
    (∀ fuel, before.length + 1 ≤ fuel →
      getURLfromstdin fuel (before ++ l :: after) = some l ∧
      scanLoop fuel { scanner := NewScanner (before ++ l :: after), url := "" } =
        some { scanner := { input := after, token := l }, url := l }) ∧
    (∀ fuel, fuel ≤ before.length → getURLfromstdin fuel (before ++ l :: after) = none) := by
  constructor
  · intro fuel hfuel
    have h := scanLoop_first_match before l after hbefore hl "" fuel hfuel
    exact ⟨by simp [getURLfromstdin, NewScanner, h], by simpa [NewScanner] using h⟩
  · intro fuel hfuel
    have h := scanLoop_running (before ++ l :: after) "" fuel (by
      intro x hx
      rw [List.take_append_of_le_length hfuel] at hx
      exact hbefore x (List.mem_of_mem_take hx))
    simp [getURLfromstdin, NewScanner, h]

theorem getURLfromstdin_returns_first_match_witness :
    getURLfromstdin 3
      ["Attempting to automatically open the SSO authorization page in your default browser.",
       "https://example.com/foo",
       "https://device.sso.us-east-1.amazonaws.com/?user_code=ABCD-EFGH",
       "https://device.sso.us-east-1.amazonaws.com/?user_code=WXYZ-QRST"]
      = some "https://device.sso.us-east-1.amazonaws.com/?user_code=ABCD-EFGH" :=
  ((getURLfromstdin_returns_first_match
      ["Attempting to automatically open the SSO authorization page in your default browser.",
       "https://example.com/foo"]
      "https://device.sso.us-east-1.amazonaws.com/?user_code=ABCD-EFGH"
      ["https://device.sso.us-east-1.amazonaws.com/?user_code=WXYZ-QRST"]
      (by decide) (by decide)).1 3 (by decide)).1

/-- C8. The line matcher of `getURLfromstdin`: a line (a string without a line feed)
is accepted if and only if it begins with `https` and contains, somewhere after that,
`user_code=` immediately followed by four uppercase letters, an optional hyphen and
four more uppercase letters. A line that does not contain `user_code=` is rejected, a
line that does not begin with `https` is rejected, the device URL of scenario A is
accepted and `https://example.com/foo` is not. -/
theorem matchString_characterisation (line : String) (hline : '\n' ∉ line.toList) :
    (urlPattern.MatchString line = true ↔ SpecAcceptedLine line.toList) ∧
    (¬ "user_code=".toList <:+: line.toList → urlPattern.MatchString line = false) ∧
    (¬ "https".toList <+: line.toList → urlPattern.MatchString line = false) ∧
    urlPattern.MatchString "https://device.sso.us-east-1.amazonaws.com/?user_code=ABCD-EFGH"
      = true ∧
    urlPattern.MatchString "https://example.com/foo" = false := by
  refine ⟨⟨specAccepted_of_matchString line, matchString_of_specAccepted line hline⟩, ?_, ?_,
    by decide, by decide⟩
  · intro hno
    cases hm : urlPattern.MatchString line with
    | false => rfl
    | true =>
      obtain ⟨mid, g₁, hy, g₂, tail, hs, -⟩ := specAccepted_of_matchString line hm
      exact absurd ⟨"https".toList ++ mid, g₁ ++ hy ++ g₂ ++ tail, by
        rw [hs]; simp only [List.append_assoc]⟩ hno
  · intro hno
    cases hm : urlPattern.MatchString line with
    | false => rfl
    | true =>
      obtain ⟨mid, g₁, hy, g₂, tail, hs, -⟩ := specAccepted_of_matchString line hm
      exact absurd ⟨mid ++ "user_code=".toList ++ g₁ ++ hy ++ g₂ ++ tail, by
        rw [hs]; simp only [List.append_assoc]⟩ hno

theorem matchString_characterisation_witness :
    '\n' ∉ "https://signin.aws/device?user_code=QWERTYUI&x=1".toList ∧
    (urlPattern.MatchString "https://signin.aws/device?user_code=QWERTYUI&x=1" = true ↔
      SpecAcceptedLine "https://signin.aws/device?user_code=QWERTYUI&x=1".toList) :=
  ⟨by decide,
   (matchString_characterisation "https://signin.aws/device?user_code=QWERTYUI&x=1"
      (by decide)).1⟩

/-- C9, as the code has it. Every value that `getURLfromstdin` returns is a line of
the input that begins with `https` and contains, after it, `user_code=` immediately
followed by four uppercase letters, an optional hyphen and four more uppercase
letters; what follows them is not constrained. -/
theorem getURLfromstdin_result_accepted (fuel : Nat) (stdin : List String) (url : String)
    (h : getURLfromstdin fuel stdin = some url) :
    url ∈ stdin ∧ urlPattern.MatchString url = true ∧ SpecAcceptedLine url.toList := by
  simp only [getURLfromstdin, NewScanner, Option.map_eq_some'] at h
  obtain ⟨st, hst, rfl⟩ := h
  obtain ⟨h1, h2⟩ := scanLoop_result fuel stdin "" st hst
  exact ⟨h1, h2, specAccepted_of_matchString _ h2⟩

theorem getURLfromstdin_result_accepted_witness :
    "https://device.sso.us-east-1.amazonaws.com/?user_code=ABCDEFGH" ∈
        ["", "https://device.sso.us-east-1.amazonaws.com/?user_code=ABCDEFGH"] ∧
      urlPattern.MatchString "https://device.sso.us-east-1.amazonaws.com/?user_code=ABCDEFGH"
        = true ∧
      SpecAcceptedLine "https://device.sso.us-east-1.amazonaws.com/?user_code=ABCDEFGH".toList :=
  getURLfromstdin_result_accepted 5
    ["", "https://device.sso.us-east-1.amazonaws.com/?user_code=ABCDEFGH"]
    "https://device.sso.us-east-1.amazonaws.com/?user_code=ABCDEFGH" (by decide)

/-- C9 fails as stated: the line `https://device.sso.us-east-1.amazonaws.com/?user_code=ABCD-EFGHIJ`
is returned, and the value of its `user_code` parameter, `ABCD-EFGHIJ`, is not two
groups of four uppercase letters. -/
theorem getURLfromstdin_not_deviceAuthorizationURL :
    getURLfromstdin 1 ["https://device.sso.us-east-1.amazonaws.com/?user_code=ABCD-EFGHIJ"]
        = some "https://device.sso.us-east-1.amazonaws.com/?user_code=ABCD-EFGHIJ" ∧
      queryParam "user_code".toList
          "https://device.sso.us-east-1.amazonaws.com/?user_code=ABCD-EFGHIJ".toList
        = some "ABCD-EFGHIJ".toList ∧
      DeviceAuthorizationURL "https://device.sso.us-east-1.amazonaws.com/?user_code=ABCD-EFGHIJ"
        = false ∧
      DeviceAuthorizationURL "https://device.sso.us-east-1.amazonaws.com/?user_code=ABCD-EFGH"
        = true := by
  decide

/-- C10. For every finite stream without an accepted line, `getURLfromstdin` never
returns: after any number `n` of iterations of the scan loop the result is still
unset (`url = ""`) and the loop has not returned; once the stream is exhausted
(`stdin.length ≤ n`) the next iteration reads the empty string from the scanner,
whose `Scan` reports the end of input, and leaves the result unset. -/
theorem getURLfromstdin_blocks_without_match (stdin : List String)
    (hno : ∀ x ∈ stdin, urlPattern.MatchString x = false) (n : Nat) :
    (Nat.iterate loopBody n { scanner := NewScanner stdin, url := "" }).url = "" ∧
    getURLfromstdin n stdin = none ∧
    (stdin.length ≤ n →
      (Nat.iterate loopBody n { scanner := NewScanner stdin, url := "" }).scanner.Scan.1 = false ∧
      (Nat.iterate loopBody n { scanner := NewScanner stdin, url := "" }).scanner.Scan.2.Text = "" ∧
      (loopBody (Nat.iterate loopBody n { scanner := NewScanner stdin, url := "" })).url = "") := by
  obtain ⟨tok1, h⟩ := iterate_loopBody_reject stdin "" n hno
  simp only [NewScanner]
  rw [h]
  refine ⟨rfl, ?_, ?_⟩
  · have hr := scanLoop_running stdin "" n (fun x hx => hno x (List.mem_of_mem_take hx))
    simp [getURLfromstdin, NewScanner, hr]
  · intro hn
    rw [List.drop_of_length_le hn, loopBody_eof]
    exact ⟨rfl, rfl, rfl⟩

theorem getURLfromstdin_blocks_without_match_witness :
    getURLfromstdin 1000 ["https://example.com/foo", "user_code=ABCD-EFGH", ""] = none :=
  (getURLfromstdin_blocks_without_match ["https://example.com/foo", "user_code=ABCD-EFGH", ""]
    (by decide) 1000).2.1


/-! ## The handling of errors: main results -/

/-- C4. The result `err` of the sequence from navigation to persistence is classified
as follows, for every error and every state. If `err` is or wraps the deadline
error, the process ends with exit code 1 and the failure message contains
`Timed out`. Otherwise, if the text of `err` is exactly `write on closed pipe`, the
process ends with exit code 0 and nothing is reported. Otherwise, for any other
error, the process ends with exit code 1 and the failure message contains the text
of the error. Without an error `ssoLogin` returns normally. The last part ties the
classification to `ssoLogin`: once the browser is connected and the cookies are
loaded, `ssoLogin` ends as `manageErrors` does on what `rod.Try` returned. -/
theorem manageErrors_classification {P : Proto} (W : World P) (err : Option GoError)
    (st : State P) :
    (errorsIsDeadlineExceeded err = true →
      (manageErrors W err st).1 = .exit 1 ∧
      (manageErrors W err st).1.exitCode = some 1 ∧
      ∃ msg, (manageErrors W err st).2.trace = st.trace ++ [.stopFailMessage msg, .stopFail] ∧
        containsText msg "Timed out") ∧
    (∀ e, err = some e → e.isDeadlineExceeded = false → e.Error = "write on closed pipe" →
      manageErrors W err st = (.exit 0, st) ∧
      (manageErrors W err st).1.exitCode = some 0) ∧
    (∀ e, err = some e → e.isDeadlineExceeded = false → e.Error ≠ "write on closed pipe" →
      (manageErrors W err st).1 = .exit 1 ∧
      (manageErrors W err st).1.exitCode = some 1 ∧
      ∃ msg, (manageErrors W err st).2.trace = st.trace ++ [.stopFailMessage msg, .stopFail] ∧
        containsText msg e.Error) ∧
    (err = none → manageErrors W err st = (.ok (), st)) ∧
    (∀ fuel url showBrowser launchurl st0 st1,
      W.launch = .ok launchurl → W.connect = none →
      loadCookies W { st0 with trace := st0.trace ++
          [.launch (!showBrowser), .message (colored W.magenta "init headless-browser \n"),
           .pause, .connect launchurl] } = (.ok (), st1) →
      Try W (automation W fuel url) st1 = (.ok err, st) →
      ssoLogin W fuel url showBrowser st0 = manageErrors W err st) := by
  refine ⟨?_, ?_, ?_, ?_, ?_⟩
  · intro hd
    have h : manageErrors W err st = (panic W "Timed out waiting for page" : Prog P Unit) st := by
      simp [manageErrors, hd]
    rw [h, panic_run]
    refine ⟨rfl, rfl, _, rfl, ?_⟩
    exact containsText_trans _ "Timed out waiting for page" _
      (containsText_panic_message W.red _) ⟨[], " waiting for page".toList, by decide⟩
  · rintro e rfl hd he
    have h : manageErrors W (some e) st = (.exit 0, st) := by
      simp [manageErrors, errorsIsDeadlineExceeded, hd, he, bind_apply, Prog.bind, osExit]
    rw [h]
    exact ⟨rfl, rfl⟩
  · rintro e rfl hd he
    have h : manageErrors W (some e) st = (panic W e.Error : Prog P Unit) st := by
      simp [manageErrors, errorsIsDeadlineExceeded, hd, he, bind_apply, Prog.bind, pure_apply]
    rw [h, panic_run]
    exact ⟨rfl, rfl, _, rfl, containsText_panic_message W.red _⟩
  · rintro rfl
    simp [manageErrors, errorsIsDeadlineExceeded, pure_apply]
  · intro fuel url showBrowser launchurl st0 st1 hl hc hload htry
    rw [ssoLogin_connected W fuel url showBrowser st0 launchurl hl hc]
    simp only [bind_apply, Prog.bind, hload, htry]

/-- C5, as the code has it. When the launch of the browser fails, or the connection
to it, `ssoLogin` does not return: the `Must` call panics outside `rod.Try` and
nothing recovers the panic, so the process ends with status 2. The spinner is given
no failure message and is not stopped in its fail state, no cookie is installed, no
navigation and no step on the page is attempted, and no file is changed. -/
theorem ssoLogin_launch_or_connect_failure {P : Proto} (W : World P) (fuel : Nat)
    (url : String) (showBrowser : Bool) (st : State P) (e : GoError)
    (hfail : W.launch = .error e ∨ ∃ launchurl, W.launch = .ok launchurl ∧ W.connect = some e) :
    (ssoLogin W fuel url showBrowser st).1 = .goPanic e ∧
    (ssoLogin W fuel url showBrowser st).1.exitCode = some 2 ∧
    (ssoLogin W fuel url showBrowser st).2.files = st.files ∧
    ∃ added, (ssoLogin W fuel url showBrowser st).2.trace = st.trace ++ added ∧
      ∀ ev ∈ added, ev.isFailureReport = false ∧ ev.isNavigationOrUI = false ∧
        ev.isSetCookies = false := by
  rcases hfail with h | ⟨launchurl, h, hc⟩
  · rw [ssoLogin_launch_error W fuel url showBrowser st e h]
    refine ⟨rfl, rfl, rfl, _, rfl, ?_⟩
    intro ev hev
    simp only [List.mem_singleton] at hev
    subst hev
    exact ⟨rfl, rfl, rfl⟩
  · rw [ssoLogin_connect_error W fuel url showBrowser st launchurl e h hc]
    refine ⟨rfl, rfl, rfl, _, rfl, ?_⟩
    intro ev hev
    simp only [List.mem_cons, List.mem_singleton, List.not_mem_nil, or_false] at hev
    rcases hev with rfl | rfl | rfl | rfl <;> exact ⟨rfl, rfl, rfl⟩

theorem ssoLogin_launch_or_connect_failure_witness :
    (ssoLogin { calmWorld [] with connect := some (.errorString "websocket: bad handshake") }
        5 "https://device.sso.us-east-1.amazonaws.com/?user_code=ABCD-EFGH" false
        emptyState).1.exitCode = some 2 :=
  (ssoLogin_launch_or_connect_failure
    { calmWorld [] with connect := some (.errorString "websocket: bad handshake") }
    5 "https://device.sso.us-east-1.amazonaws.com/?user_code=ABCD-EFGH" false emptyState
    (.errorString "websocket: bad handshake") (Or.inr ⟨"ws://127.0.0.1:9222", rfl, rfl⟩)).2.1

/-- C5 fails as stated: when the launch fails with the error `exec: chrome: not
found`, the only effect of `ssoLogin` is the launch itself, no failure message is
set and the spinner is not stopped, and the process ends by the panic, with status 2
and not 1. -/
theorem ssoLogin_launch_failure_not_failure_path :
    (ssoLogin { calmWorld [] with launch := .error (.errorString "exec: chrome: not found") }
        5 "https://device.sso.us-east-1.amazonaws.com/?user_code=ABCD-EFGH" false
        emptyState).1.exitCode = some 2 ∧
    ((ssoLogin { calmWorld [] with launch := .error (.errorString "exec: chrome: not found") }
        5 "https://device.sso.us-east-1.amazonaws.com/?user_code=ABCD-EFGH" false
        emptyState).2.trace.map Event.isFailureReport) = [false] := by
  constructor <;> rfl


/-! ## The credential file: main results -/

/-- C2. Round trip of the credential encoding, the cookie and its structured
encoding being modelled from the spec. For every session credential `c`, whatever
its name, its value and its other attributes, the optional one being present, empty
or absent: decoding as `loadCookies` does (base64 standard decoding, then decoding of
the JSON) the text that `saveCookies` produces for `c` (JSON, then base64 standard
encoding) yields a credential equal to `c`, and none of the four steps reports an
error. So, when `saveCookies` has written the file for the session cookie `c` of the
jar, the next `loadCookies` gives the browser exactly `c`. -/
theorem credential_roundtrip (c : SessionCredential) :
    (jsonUnmarshal (DecodeString (EncodeToString (jsonMarshal c).1)).1).1 = some c ∧
    (jsonUnmarshal (DecodeString (EncodeToString (jsonMarshal c).1)).1).2 = none ∧
    (DecodeString (EncodeToString (jsonMarshal c).1)).2 = false ∧
    (jsonMarshal c).2 = none ∧
    ∀ (W : World jsonProto) (jar : List SessionCredential) (st : State jsonProto),
      W.getCookies = .ok jar →
      jar.find? (fun x => decide (x.name = sessionCookieName)) = some c →
      W.writeFile = none →
      (loadCookies W (saveCookies W st).2).2.trace =
        (saveCookies W st).2.trace ++ [.message "loading cookies"] ++ homeWarning W ++
          [.setCookies c] := by
  have hjson := jsonUnmarshal_jsonMarshal c
  refine ⟨by rw [DecodeString_EncodeToString, hjson], by rw [DecodeString_EncodeToString, hjson],
    by rw [DecodeString_EncodeToString], rfl, ?_⟩
  intro W jar st hjar hfind hwrite
  exact loadCookies_after_saveCookies W jar st c hjar hfind hwrite (by
    show (jsonUnmarshal (jsonMarshal c).1).1 = some c
    rw [hjson])

theorem credential_roundtrip_witness :
    (jsonUnmarshal (DecodeString (EncodeToString (jsonMarshal
      { name := "x-amz-sso_authn", value := "a\"b\\c <é> \n", domain := "", path := "/",
        expires := { negative := true, whole := 1, fraction := [] },
        httpOnly := true, secure := true, sameSite := none }).1)).1).1
      = some
      { name := "x-amz-sso_authn", value := "a\"b\\c <é> \n", domain := "", path := "/",
        expires := { negative := true, whole := 1, fraction := [] },
        httpOnly := true, secure := true, sameSite := none } :=
  (credential_roundtrip
    { name := "x-amz-sso_authn", value := "a\"b\\c <é> \n", domain := "", path := "/",
      expires := { negative := true, whole := 1, fraction := [] },
      httpOnly := true, secure := true, sameSite := none }).1

/-- C3, as the code has it. Let the browser hand over the jar. If no cookie of the
jar has the session name, `saveCookies` leaves every file unchanged and reports
nothing but the warning of a failed home directory lookup, if that lookup failed.
Otherwise let `c` be the first cookie of the jar with the session name. When the
write succeeds, the credential file holds exactly the base64 text of the JSON of
`c`, whatever it held before, no other file changes, and a second call with the same
jar leaves the same files. When the write fails, the warning `Failed to save
x-amz-sso_authn cookie` is reported; the files are unchanged if the credential file
could not be opened, and otherwise the credential file holds the part of the base64
text, possibly empty, that was written before the failure. -/
theorem saveCookies_credential_file {P : Proto} (W : World P) (jar : List P.NetworkCookie)
    (hjar : W.getCookies = .ok jar) (st : State P) :
    ((∀ c ∈ jar, P.Name c ≠ sessionCookieName) →
      saveCookies W st =
        (.ok (), { st with trace := st.trace ++ homeWarning W ++ [.getCookies] })) ∧
    (∀ c, jar.find? (fun x => decide (P.Name x = sessionCookieName)) = some c →
      W.writeFile = none →
      saveCookies W st =
        (.ok (), { files := (fun n =>
                     if n = credentialFile (UserHomeDir W).1
                     then some (EncodeToString (P.Marshal c).1) else st.files n),
                   trace := st.trace ++ homeWarning W ++ [.getCookies] }) ∧
      (saveCookies W (saveCookies W st).2).2.files = (saveCookies W st).2.files) ∧
    (∀ c failure, jar.find? (fun x => decide (P.Name x = sessionCookieName)) = some c →
      W.writeFile = some failure →
      saveCookies W st =
        (.ok (),
         { files :=
             (match failure.written with
              | none => st.files
              | some k => (fun n =>
                  if n = credentialFile (UserHomeDir W).1
                  then some ((EncodeToString (P.Marshal c).1).take k) else st.files n)),
           trace := st.trace ++ homeWarning W ++ [.getCookies] ++
             [.message ("Warn: " ++ colored W.yellow "Failed to save x-amz-sso_authn cookie")] })) ∧
    (∀ dirname, W.home = .ok dirname → homeWarning W = []) := by
  refine ⟨?_, ?_, ?_, ?_⟩
  · intro hno
    have hfind : jar.find? (fun x => decide (P.Name x = sessionCookieName)) = none := by
      rw [List.find?_eq_none]
      intro x hx
      simpa using hno x hx
    rw [saveCookies_run W jar hjar, saveCookiesLoop_run, hfind]
  · intro c hfind hwrite
    have h1 : ∀ s : State P, saveCookies W s =
        (.ok (), { files := (fun n =>
                     if n = credentialFile (UserHomeDir W).1
                     then some (EncodeToString (P.Marshal c).1) else s.files n),
                   trace := s.trace ++ homeWarning W ++ [.getCookies] }) := by
      intro s
      rw [saveCookies_run W jar hjar, saveCookiesLoop_run, hfind, hwrite]
    refine ⟨h1 st, ?_⟩
    rw [h1 (saveCookies W st).2, h1 st]
    funext n
    by_cases hn : n = credentialFile (UserHomeDir W).1 <;> simp [hn]
  · intro c failure hfind hwrite
    rw [saveCookies_run W jar hjar, saveCookiesLoop_run, hfind, hwrite]
  · intro dirname hhome
    simp [homeWarning, hhome]

theorem saveCookies_credential_file_witness :
    (saveCookies (calmWorld [{ Name := "other", Value := "x" }, sampleCookie]) emptyState).2.files
        "/home/u/.aws-federated-headless-login"
      = some (asciiBytes "eyJuYW1lIjoieC1hbXotc3NvX2F1dGhuIiwidmFsdWUiOiJzM2NyM3QifQ==") := by
  have h := ((saveCookies_credential_file
    (calmWorld [{ Name := "other", Value := "x" }, sampleCookie])
    [{ Name := "other", Value := "x" }, sampleCookie] rfl emptyState).2.1
      sampleCookie
      (show List.find? (fun x : SampleCookie => decide (x.Name = sessionCookieName))
        [{ Name := "other", Value := "x" }, sampleCookie] = some sampleCookie by decide) rfl).1
  rw [h]
  decide

/-- C3 fails as stated. With an empty jar and a failed home directory lookup,
`saveCookies` reports a warning. With the session cookie in the jar and a write that
fails because the file may not be opened, the credential file keeps what it held
before. -/
theorem saveCookies_warns_or_keeps_file :
    ((saveCookies { calmWorld [] with home := .error (.errorString "$HOME is not defined") }
        emptyState).2.trace.map Event.isWarning) = [true, false] ∧
    (saveCookies
        { calmWorld [sampleCookie] with
            writeFile := some { err := .errorString "permission denied", written := none } }
        { files := fun _ => some (asciiBytes "b2xk"), trace := [] }).2.files
      "/home/u/.aws-federated-headless-login" = some (asciiBytes "b2xk") := by
  constructor
  · decide
  · rfl


/-- C6, as the code has it. Both decoders run with their errors discarded, and only
the cookie pointer decides. For every content of the credential file such that
`json.Unmarshal`, applied to the bytes that the base64 decoding returned (all of
them, or those decoded before the corrupt input), leaves the cookie nil,
`loadCookies` installs no cookie, reports no failure and returns normally. -/
theorem loadCookies_without_cookie {P : Proto} (W : World P) (st : State P)
    (hnil : (P.Unmarshal
      (DecodeString ((st.files (credentialFile (UserHomeDir W).1)).getD [])).1).1 = none) :
    loadCookies W st =
      (.ok (), { st with trace := st.trace ++ [.message "loading cookies"] ++ homeWarning W }) ∧
    ∀ ev ∈ [Event.message "loading cookies"] ++ homeWarning W,
      ev.isSetCookies = false ∧ ev.isFailureReport = false := by
  exact ⟨loadCookies_of_nil W st hnil, loadCookies_effects_harmless W⟩

theorem loadCookies_without_cookie_witness :
    loadCookies (calmWorld [])
        { files := fun _ => some (asciiBytes "aGVsbG8="), trace := [] } =
      (.ok (), { files := fun _ => some (asciiBytes "aGVsbG8="),
                 trace := [.message "loading cookies"] }) :=
  (loadCookies_without_cookie (calmWorld [])
    { files := fun _ => some (asciiBytes "aGVsbG8="), trace := [] }
    (show (sampleUnmarshal (DecodeString (asciiBytes "aGVsbG8=")).1).1 = none by decide)).1

/-- C6 fails as stated: the base64 decoding of the file
`eyJuYW1lIjoieC1hbXotc3NvX2F1dGhuIiwidmFsdWUiOiJzM2NyM3QifQ==!` fails at its last
character, and `loadCookies` installs the cookie that the part before it encodes. -/
theorem loadCookies_installs_from_corrupt_file :
    (DecodeString
      (asciiBytes "eyJuYW1lIjoieC1hbXotc3NvX2F1dGhuIiwidmFsdWUiOiJzM2NyM3QifQ==!")).2 = true ∧
    (loadCookies (calmWorld [])
        { files := fun _ =>
            some (asciiBytes "eyJuYW1lIjoieC1hbXotc3NvX2F1dGhuIiwidmFsdWUiOiJzM2NyM3QifQ==!"),
          trace := [] }).2.trace =
      [.message "loading cookies", .setCookies sampleCookie] := by
  constructor
  · decide
  · rw [loadCookies_run]
    have h : (sampleUnmarshal (DecodeString
        (asciiBytes "eyJuYW1lIjoieC1hbXotc3NvX2F1dGhuIiwidmFsdWUiOiJzM2NyM3QifQ==!")).1).1
        = some sampleCookie := by decide
    simp only [Option.getD_some]
    rw [show sampleProto.Unmarshal = sampleUnmarshal from rfl, h]
    rfl

/-- C7. When the credential file is missing or cannot be read, and `json.Unmarshal`
leaves the cookie nil on an empty input, `loadCookies` yields no credential: it
installs no cookie, reports no failure and returns normally; and `ssoLogin`, once
the browser is launched and connected, goes on to the navigation: the effects that
follow those of `loadCookies` are the message `opening url` and the opening of the
page of the URL. -/
theorem loadCookies_missing_file {P : Proto} (W : World P) (st : State P)
    (hfile : st.files (credentialFile (UserHomeDir W).1) = none)
    (hjson : (P.Unmarshal []).1 = none) :
    loadCookies W st =
      (.ok (), { st with trace := st.trace ++ [.message "loading cookies"] ++ homeWarning W }) ∧
    (∀ ev ∈ [Event.message "loading cookies"] ++ homeWarning W,
      ev.isSetCookies = false ∧ ev.isFailureReport = false) ∧
    ∀ fuel url showBrowser launchurl, W.launch = .ok launchurl → W.connect = none →
      ∃ later, (ssoLogin W fuel url showBrowser st).2.trace =
        st.trace ++
          [.launch (!showBrowser), .message (colored W.magenta "init headless-browser \n"),
           .pause, .connect launchurl] ++
          ([.message "loading cookies"] ++ homeWarning W) ++
          [.message "opening url", .page url] ++ later := by
  have hnil : ∀ s : State P, s.files = st.files →
      (P.Unmarshal
        (DecodeString ((s.files (credentialFile (UserHomeDir W).1)).getD [])).1).1 = none := by
    intro s hs
    rw [hs, hfile]
    exact hjson
  refine ⟨loadCookies_of_nil W st (hnil st rfl), loadCookies_effects_harmless W, ?_⟩
  intro fuel url showBrowser launchurl hl hc
  rw [ssoLogin_connected W fuel url showBrowser st launchurl hl hc]
  rw [bind_apply]
  have hload := loadCookies_of_nil W
    { st with trace := st.trace ++
        [.launch (!showBrowser), .message (colored W.magenta "init headless-browser \n"),
         .pause, .connect launchurl] } (hnil _ rfl)
  simp only [Prog.bind, hload]
  obtain ⟨later, h⟩ := beginsWith_bind _ _ (manageErrors W)
    (beginsWith_Try W _ _ (beginsWith_automation W fuel url))
    (fun err => traceGrows_manageErrors W err)
    { st with trace := st.trace ++
        [.launch (!showBrowser), .message (colored W.magenta "init headless-browser \n"),
         .pause, .connect launchurl] ++ [.message "loading cookies"] ++ homeWarning W }
  exact ⟨later, by rw [h]; simp only [List.append_assoc]⟩

theorem loadCookies_missing_file_witness :
    loadCookies (calmWorld []) emptyState =
      (.ok (), { emptyState with trace := [.message "loading cookies"] }) :=
  (loadCookies_missing_file (calmWorld []) emptyState rfl rfl).1


end AwsLogin
